import Mathlib

/-!
Shallow embedding of `src/trace_processor/importers/proto/async_track_set_tracker.h`
(class `AsyncTrackSetTracker` of perfetto's trace processor).

The repository snapshot contains only the header: the data model (`TrackState`,
`TrackSet`, the interning maps, `NestingBehaviour`, `TrackSetType`) and the
documentation comments describing the algorithms (`GetOrCreateTrackForCookie`,
`Begin`, `End`, `Scoped`, the `Intern*` methods).  The method bodies live in the
corresponding `.cc` file which is not part of the snapshot, so each operation
below is modelled from the specification's algorithm sections (spec §4.1-§4.5),
which were written against that implementation.  The data model follows the
header directly, with the manually discriminated unions rendered as sum types
(as spec §9 prescribes for a typed re-implementation).

Identifier conventions: `StringId`, `UniquePid`, `TrackId` and `TrackSetId` are
opaque handles in the source; they are modelled as `Nat`.  Cookies and
timestamps are `int64_t` in the source; they are modelled as `Int` (no
arithmetic in the component ever approaches the 64-bit range, and the spec
treats them as opaque/ordered values only).
-/

namespace AsyncTrackSetTracker

/-- Occupancy of one physical track.  In the header this is the
`TrackState::SliceType` discriminant plus the `cookie`/`ts_end` union and the
`nest_count` field (header lines 132-148); `nest_count` is only meaningful for
cookie slices, so it lives inside the `cookie` arm here. -/
inductive Occupancy where
  | cookie (cookie : Int) (nest_count : Nat)
  | range (ts_end : Int)
  deriving DecidableEq, Repr

/-- One physical track's state inside a track set (header `TrackState`). -/
structure TrackState where
  id : Nat
  occupancy : Occupancy
  deriving DecidableEq, Repr

/-- Grouping key of a track set.  In the header this is the `TrackSetType` enum
discriminating the `global_track_name` / `android_tuple` /
`frame_timeline_tuple` union (header lines 126-158).  The android and
frame-timeline keys have identical shape but are distinct namespaces. -/
inductive SetKey where
  | global (name : Nat)
  | android (upid : Nat) (name : Nat)
  | frameTimeline (upid : Nat) (name : Nat)
  deriving DecidableEq, Repr

/-- Nesting behaviour of repeated `Begin` calls with one cookie (header
`NestingBehaviour`, lines 110-124). -/
inductive NestingBehaviour where
  | kUnnestable
  | kLegacySaturatingUnnestable
  deriving DecidableEq, Repr

/-- A set of physical tracks multiplexing one logical UI track (header
`TrackSet`, lines 150-161). -/
structure TrackSet where
  key : SetKey
  nesting_behaviour : NestingBehaviour
  tracks : List TrackState
  deriving DecidableEq, Repr

/-- Whole-tracker state: the three interning maps, the track-set store (header
members `global_track_set_ids_`, `android_track_set_ids_`,
`frame_timeline_track_set_ids_`, `track_sets_`, lines 182-185), plus the two
externally-delegated effects the algorithms need:

* `next_track_id` models the external storage collaborator behind
  `CreateTrackForSet` (spec §4.5: pure allocation of fresh physical-track
  identities), as a fresh-id counter;
* `violations` models the protocol-violation diagnostic signal of spec §7
  (surfaced to the caller as statistics in the real system), as a counter.

The C++ `std::map`s are modelled as association lists with the lookup function
below; only lookup semantics matter (no removal operation exists). -/
structure Tracker where
  global_track_set_ids : List (Nat × Nat)
  android_track_set_ids : List ((Nat × Nat) × Nat)
  frame_timeline_track_set_ids : List ((Nat × Nat) × Nat)
  track_sets : List TrackSet
  next_track_id : Nat
  violations : Nat
  deriving DecidableEq, Repr

/-- A freshly constructed tracker: all maps and the store empty. -/
def Tracker.init : Tracker :=
  { global_track_set_ids := []
    android_track_set_ids := []
    frame_timeline_track_set_ids := []
    track_sets := []
    next_track_id := 0
    violations := 0 }

/-- Association-list lookup standing in for `std::map::find`. -/
def lookupKey {α : Type} [DecidableEq α] (k : α) : List (α × Nat) → Option Nat
  | [] => none
  | (k', v) :: rest => if k' = k then some v else lookupKey k rest

/-- Modelled from the spec: body of `AsyncTrackSetTracker::InternGlobalTrackSet`
(declared header line 62; body not in the snapshot).  Spec §4.1: repeated calls
with an equal key return the same identifier; a first-seen key allocates a new
`TrackSet` with an empty track list, registered in the map; global sets use the
strict policy (`kUnnestable`). -/
def Tracker.InternGlobalTrackSet (t : Tracker) (name : Nat) : Nat × Tracker :=
  match lookupKey name t.global_track_set_ids with
  | some sid => (sid, t)
  | none =>
    let sid := t.track_sets.length
    (sid,
      { t with
        global_track_set_ids := (name, sid) :: t.global_track_set_ids
        track_sets := t.track_sets ++
          [{ key := .global name, nesting_behaviour := .kUnnestable, tracks := [] }] })

/-- Modelled from the spec: body of `AsyncTrackSetTracker::InternAndroidSet`
(declared header line 67; body not in the snapshot).  Spec §4.1: android-kind
keys use the `SaturatingLegacy` policy (`kLegacySaturatingUnnestable`, header
lines 117-123); first-seen keys allocate a new empty `TrackSet`. -/
def Tracker.InternAndroidSet (t : Tracker) (upid name : Nat) : Nat × Tracker :=
  match lookupKey (upid, name) t.android_track_set_ids with
  | some sid => (sid, t)
  | none =>
    let sid := t.track_sets.length
    (sid,
      { t with
        android_track_set_ids := ((upid, name), sid) :: t.android_track_set_ids
        track_sets := t.track_sets ++
          [{ key := .android upid name
             nesting_behaviour := .kLegacySaturatingUnnestable
             tracks := [] }] })

/-- Modelled from the spec: body of `AsyncTrackSetTracker::InternFrameTimelineSet`
(declared header line 74; body not in the snapshot).  Spec §4.1: all kinds other
than android use the strict policy; the frame-timeline namespace is separate
from the android one even though the key shape is identical. -/
def Tracker.InternFrameTimelineSet (t : Tracker) (upid name : Nat) : Nat × Tracker :=
  match lookupKey (upid, name) t.frame_timeline_track_set_ids with
  | some sid => (sid, t)
  | none =>
    let sid := t.track_sets.length
    (sid,
      { t with
        frame_timeline_track_set_ids :=
          ((upid, name), sid) :: t.frame_timeline_track_set_ids
        track_sets := t.track_sets ++
          [{ key := .frameTimeline upid name
             nesting_behaviour := .kUnnestable
             tracks := [] }] })

/-- Whether a track currently carries the given cookie tag (step 1 of the
`GetOrCreateTrackForCookie` scan, header lines 172-174). -/
def tagMatches (c : Int) (tr : TrackState) : Bool :=
  match tr.occupancy with
  | .cookie c' _ => c' = c
  | .range _ => false

/-- Whether a cookie track is free for reuse: spec §3, `openCount == 0` means
free for cookie-based reuse by a different cookie (step 2 of the scan, header
lines 175-176). -/
def isFree (tr : TrackState) : Bool :=
  match tr.occupancy with
  | .cookie _ n => n = 0
  | .range _ => false

/-- Whether a range track can accept an interval starting at `ts`: spec §3, a
track is free once the new interval's start is at or after the stored end. -/
def rangeFreeAt (ts : Int) (tr : TrackState) : Bool :=
  match tr.occupancy with
  | .range e => e ≤ ts
  | .cookie _ _ => false

/-- First-fit scan shared by the multiplexers: walk the set's tracks in
insertion order, replace the first track satisfying `p` by its image under `f`,
and return that track's original state together with the updated list; `none`
when no track matches.  Spec §4.2/§4.4: scan order is insertion order, first
match wins. -/
def updateFirst (p : TrackState → Bool) (f : TrackState → TrackState) :
    List TrackState → Option (TrackState × List TrackState)
  | [] => none
  | tr :: rest =>
    if p tr then some (tr, f tr :: rest)
    else
      match updateFirst p f rest with
      | none => none
      | some (sel, rest') => some (sel, tr :: rest')

/-- Re-entrant `Begin` accounting: spec §4.2 step 1, both policies increase the
open count of the already-tagged track. -/
def bumpCookie (tr : TrackState) : TrackState :=
  match tr.occupancy with
  | .cookie c n => { tr with occupancy := .cookie c (n + 1) }
  | .range _ => tr

/-- Re-tag a free track for a new cookie with open count 1 (spec §4.2 step 2);
also used to tag a freshly created track (step 3). -/
def retagCookie (c : Int) (tr : TrackState) : TrackState :=
  { tr with occupancy := .cookie c 1 }

/-- Whether a re-entrant `Begin` is a protocol violation: spec §4.2 step 1 with
§3's definition, under the strict policy a `Begin` while the same cookie is
logically still open (open count positive) on the found track is a violation;
under the saturating policy duplicate Begins are legal. -/
def beginViolation (pol : NestingBehaviour) (tr : TrackState) : Bool :=
  match pol, tr.occupancy with
  | .kUnnestable, .cookie _ n => 0 < n
  | _, _ => false

/-- Modelled from the spec: body of `AsyncTrackSetTracker::Begin` together with
`GetOrCreateTrackForCookie` (declared header lines 70 and 178; bodies not in
the snapshot).  Spec §4.2 and the header comment at lines 172-177:

1. if a track tagged with the cookie exists, return the first such track,
   increasing its open count; under the strict policy a re-entrant `Begin`
   on a still-open cookie additionally registers a protocol violation;
2. otherwise re-tag the first free track (open count 0) with the cookie and
   open count 1;
3. otherwise create a new track (fresh id from the allocator), tagged with the
   cookie and open count 1, appended to the set.

Passing a `TrackSetId` that was never interned is a usage error (spec §7),
modelled as `none`. -/
def Tracker.Begin (t : Tracker) (sid : Nat) (cookie : Int) : Option (Nat × Tracker) :=
  match t.track_sets[sid]? with
  | none => none
  | some set =>
    match updateFirst (tagMatches cookie) bumpCookie set.tracks with
    | some (sel, tracks') =>
      some (sel.id,
        { t with
          track_sets := t.track_sets.set sid { set with tracks := tracks' }
          violations :=
            t.violations + (if beginViolation set.nesting_behaviour sel then 1 else 0) })
    | none =>
      match updateFirst isFree (retagCookie cookie) set.tracks with
      | some (sel, tracks') =>
        some (sel.id,
          { t with track_sets := t.track_sets.set sid { set with tracks := tracks' } })
      | none =>
        let tr : TrackState := { id := t.next_track_id, occupancy := .cookie cookie 1 }
        some (tr.id,
          { t with
            track_sets := t.track_sets.set sid { set with tracks := set.tracks ++ [tr] }
            next_track_id := t.next_track_id + 1 })

/-- `End` accounting: decrement the open count of the found track
(spec §4.3). -/
def decCookie (tr : TrackState) : TrackState :=
  match tr.occupancy with
  | .cookie c n => { tr with occupancy := .cookie c (n - 1) }
  | .range _ => tr

/-- Modelled from the spec: body of `AsyncTrackSetTracker::End` (declared
header line 77; body not in the snapshot).  Spec §4.3: find the first track
tagged with the cookie; if found, decrement its open count and return its
identifier; if not found this is a protocol violation — the diagnostic signal
is raised, no track state is mutated and no track identifier is returned
(inner `none`).  Passing a never-interned `TrackSetId` is a usage error
(outer `none`). -/
def Tracker.End (t : Tracker) (sid : Nat) (cookie : Int) :
    Option (Option Nat × Tracker) :=
  match t.track_sets[sid]? with
  | none => none
  | some set =>
    match updateFirst (tagMatches cookie) decCookie set.tracks with
    | some (sel, tracks') =>
      some (some sel.id,
        { t with track_sets := t.track_sets.set sid { set with tracks := tracks' } })
    | none => some (none, { t with violations := t.violations + 1 })

/-- Whether `Scoped` is supported for a given set kind: the header documents
android sets as not supporting `Scoped` (header line 66); the other kinds
carry no such restriction. -/
def scopedSupported (k : SetKey) : Bool :=
  match k with
  | .android _ _ => false
  | _ => true

/-- Stamp a range track with the end of a newly assigned interval
(spec §4.4). -/
def setRangeEnd (e : Int) (tr : TrackState) : TrackState :=
  { tr with occupancy := .range e }

/-- Modelled from the spec: body of `AsyncTrackSetTracker::Scoped` (declared
header line 84; body not in the snapshot).  Spec §4.4: find the first track
whose stored end timestamp is at most the new start and re-tag it with the new
end `ts + dur`; otherwise create a new track so tagged.  Calling `Scoped`
against a kind that does not support it, or with a never-interned
`TrackSetId`, is an abort-class usage error (spec §7), modelled as `none`. -/
def Tracker.Scoped (t : Tracker) (sid : Nat) (ts dur : Int) : Option (Nat × Tracker) :=
  match t.track_sets[sid]? with
  | none => none
  | some set =>
    if scopedSupported set.key then
      match updateFirst (rangeFreeAt ts) (setRangeEnd (ts + dur)) set.tracks with
      | some (sel, tracks') =>
        some (sel.id,
          { t with track_sets := t.track_sets.set sid { set with tracks := tracks' } })
      | none =>
        let tr : TrackState := { id := t.next_track_id, occupancy := .range (ts + dur) }
        some (tr.id,
          { t with
            track_sets := t.track_sets.set sid { set with tracks := set.tracks ++ [tr] }
            next_track_id := t.next_track_id + 1 })
    else none

/-! ### Observers and invariants used to state the specification's properties. -/

/-- Number of physical tracks currently associated with a track set. -/
def numTracks (t : Tracker) (sid : Nat) : Nat :=
  match t.track_sets[sid]? with
  | some set => set.tracks.length
  | none => 0

/-- The cookie tag carried by a track, when it is a cookie track. -/
def tagOf (tr : TrackState) : Option Int :=
  match tr.occupancy with
  | .cookie c _ => some c
  | .range _ => none

/-- Whether a cookie track is currently open (positive open count). -/
def isOpenTrack (tr : TrackState) : Bool :=
  match tr.occupancy with
  | .cookie _ n => 0 < n
  | .range _ => false

/-- Identifier and open count of the first track tagged with a cookie in a
set, if any. -/
def cookieState (t : Tracker) (sid : Nat) (c : Int) : Option (Nat × Nat) :=
  match t.track_sets[sid]? with
  | none => none
  | some set =>
    match set.tracks.find? (tagMatches c) with
    | none => none
    | some tr =>
      match tr.occupancy with
      | .cookie _ n => some (tr.id, n)
      | .range _ => none

/-- One event of a Begin/End call sequence against a single track set. -/
inductive CookieEvent where
  | beginEv (c : Int)
  | endEv (c : Int)
  deriving DecidableEq, Repr

/-- Run a sequence of Begin/End events against one track set, threading the
tracker state (a call against an invalid set identifier is a usage error and
leaves the state unchanged; it never occurs for the interned identifiers the
properties quantify over). -/
def applyEvent (t : Tracker) (sid : Nat) : CookieEvent → Tracker
  | .beginEv c =>
    match t.Begin sid c with
    | some (_, t') => t'
    | none => t
  | .endEv c =>
    match t.End sid c with
    | some (_, t') => t'
    | none => t

/-- Fold of `applyEvent` over an event sequence. -/
def runEvents (t : Tracker) (sid : Nat) : List CookieEvent → Tracker
  | [] => t
  | ev :: evs => runEvents (applyEvent t sid ev) sid evs

/-- Properly paired Begin/End sequences with distinct cookies: relative to the
multiset `opened` of currently open cookies and the set `used` of cookies ever
begun, every `Begin` uses a fresh cookie and every `End` closes an open one
(no duplicate Begin on an open cookie, no unmatched End). -/
def wfEvents (opened used : List Int) : List CookieEvent → Prop
  | [] => True
  | .beginEv c :: evs => c ∉ used ∧ wfEvents (c :: opened) (c :: used) evs
  | .endEv c :: evs => c ∈ opened ∧ wfEvents (opened.erase c) used evs

/-- Maximum number of simultaneously open cookies at any instant while running
the events, starting from `k` open cookies. -/
def maxOpen (k : Nat) : List CookieEvent → Nat
  | [] => k
  | .beginEv _ :: evs => max k (maxOpen (k + 1) evs)
  | .endEv _ :: evs => max k (maxOpen (k - 1) evs)

/-- State invariant tying a cookie set's track list to the open/used cookies of
a well-formed event sequence: every track is a cookie track with open count at
most 1 whose tag was begun at some point, tags are pairwise distinct, the open
cookies are exactly the tags of the open tracks, and there are as many open
tracks as open cookies. -/
structure TracksInv (tracks : List TrackState) (opened used : List Int) : Prop where
  all_cookie : ∀ tr ∈ tracks, ∃ c n, tr.occupancy = .cookie c n ∧ n ≤ 1 ∧ c ∈ used
  tags_nodup : (tracks.map tagOf).Nodup
  open_iff : ∀ c, c ∈ opened ↔ ∃ tr ∈ tracks, tr.occupancy = .cookie c 1
  open_count : tracks.countP isOpenTrack = opened.length
  opened_nodup : opened.Nodup
  opened_sub : ∀ c ∈ opened, c ∈ used

/-- Run a sequence of `Scoped` calls (start, duration) against one track set. -/
def runScoped (t : Tracker) (sid : Nat) : List (Int × Int) → Tracker
  | [] => t
  | (ts, dur) :: rest =>
    runScoped
      (match t.Scoped sid ts dur with
       | some (_, t') => t'
       | none => t) sid rest

/-- Interning-map well-formedness: every entry of the android and
frame-timeline maps points at a stored set of the matching kind (with the
policy the interning call fixes).  This holds for every tracker built from
`Tracker.init` by the operations and is the hypothesis under which
kind-separation is stated. -/
def keyWF (t : Tracker) : Bool :=
  (t.android_track_set_ids.all fun kv =>
    match t.track_sets[kv.2]? with
    | some s =>
      s.key = .android kv.1.1 kv.1.2 ∧
        s.nesting_behaviour = .kLegacySaturatingUnnestable
    | none => False) &&
  (t.frame_timeline_track_set_ids.all fun kv =>
    match t.track_sets[kv.2]? with
    | some s => s.key = .frameTimeline kv.1.1 kv.1.2
    | none => False)

/-- Physical-track identity well-formedness: within every set the track
identifiers are pairwise distinct and below the allocator's next fresh
identifier.  This holds for every tracker built from `Tracker.init` by the
operations and is the hypothesis under which track distinctness is stated. -/
def idsWF (t : Tracker) : Bool :=
  t.track_sets.all fun set =>
    (set.tracks.map TrackState.id).Nodup ∧
      set.tracks.all fun tr => tr.id < t.next_track_id

/-- Frame condition of one multiplexer call addressed at set `sid`: the three
interning maps are untouched, no track set is created or destroyed, every
other set is untouched, and the addressed set keeps its key and policy while
its track list is changed by at most one in-place update or one append (in
particular no track is removed and none are reordered). -/
def FrameConcl (t : Tracker) (sid : Nat) (t' : Tracker) : Prop :=
  t'.global_track_set_ids = t.global_track_set_ids ∧
  t'.android_track_set_ids = t.android_track_set_ids ∧
  t'.frame_timeline_track_set_ids = t.frame_timeline_track_set_ids ∧
  t'.track_sets.length = t.track_sets.length ∧
  (∀ j, j ≠ sid → t'.track_sets[j]? = t.track_sets[j]?) ∧
  ∃ set set', t.track_sets[sid]? = some set ∧ t'.track_sets[sid]? = some set' ∧
    set'.key = set.key ∧ set'.nesting_behaviour = set.nesting_behaviour ∧
    ((∃ j tr', set'.tracks = set.tracks.set j tr') ∨
      ∃ tr, set'.tracks = set.tracks ++ [tr])

/-- Canonical shape of a tracker whose set `sid` was just rewritten: used to
chain the effect of successive `Begin`/`End` calls on one set. -/
def withTracks (t : Tracker) (sid : Nat) (key : SetKey) (nb : NestingBehaviour)
    (tracks : List TrackState) (vio : Nat) : Tracker :=
  { t with track_sets := t.track_sets.set sid ⟨key, nb, tracks⟩, violations := vio }

/-! ### Concrete states of the strict-policy duplicate-Begin scenario
(`InternGlobalTrackSet 10`, then `Begin 5; Begin 5; End 5; Begin 6` on the
resulting set). -/

/-- The tracker after interning android set (1, 2) on a fresh tracker. -/
def tA : Tracker :=
  { global_track_set_ids := []
    android_track_set_ids := [((1, 2), 0)]
    frame_timeline_track_set_ids := []
    track_sets := [{ key := .android 1 2,
                     nesting_behaviour := .kLegacySaturatingUnnestable,
                     tracks := [] }]
    next_track_id := 0
    violations := 0 }

/-- The tracker after interning global set 10 on a fresh tracker. -/
def tG : Tracker :=
  { global_track_set_ids := [(10, 0)]
    android_track_set_ids := []
    frame_timeline_track_set_ids := []
    track_sets := [{ key := .global 10, nesting_behaviour := .kUnnestable, tracks := [] }]
    next_track_id := 0
    violations := 0 }

/-- State after `Begin 0 5` on `tG`: one track, cookie 5 open once. -/
def tB1 : Tracker :=
  { tG with
    track_sets := [{ key := .global 10, nesting_behaviour := .kUnnestable,
                     tracks := [{ id := 0, occupancy := .cookie 5 1 }] }]
    next_track_id := 1 }

/-- State after the duplicate `Begin 0 5` on `tB1`: open count 2, one
protocol violation registered. -/
def tB2 : Tracker :=
  { tB1 with
    track_sets := [{ key := .global 10, nesting_behaviour := .kUnnestable,
                     tracks := [{ id := 0, occupancy := .cookie 5 2 }] }]
    violations := 1 }

/-- State after `End 0 5` on `tB2`: open count back to 1 — still occupied. -/
def tE1 : Tracker :=
  { tB2 with
    track_sets := [{ key := .global 10, nesting_behaviour := .kUnnestable,
                     tracks := [{ id := 0, occupancy := .cookie 5 1 }] }] }

/-- State after `Begin 0 6` on `tE1`: the track holding cookie 5 was not
reusable, so a second physical track was created. -/
def tF : Tracker :=
  { tE1 with
    track_sets := [{ key := .global 10, nesting_behaviour := .kUnnestable,
                     tracks := [{ id := 0, occupancy := .cookie 5 1 },
                                { id := 1, occupancy := .cookie 6 1 }] }]
    next_track_id := 2 }

/-- State after `Scoped 0 0 10` on `tG`: one range track ending at 10. -/
def tS1 : Tracker :=
  { tG with
    track_sets := [{ key := .global 10, nesting_behaviour := .kUnnestable,
                     tracks := [{ id := 0, occupancy := .range 10 }] }]
    next_track_id := 1 }

/-- State after `Scoped 0 5 10` on `tS1`: interval [5, 15) overlaps [0, 10),
so a second track was created. -/
def tS2 : Tracker :=
  { tG with
    track_sets := [{ key := .global 10, nesting_behaviour := .kUnnestable,
                     tracks := [{ id := 0, occupancy := .range 10 },
                                { id := 1, occupancy := .range 15 }] }]
    next_track_id := 2 }

/-! ### Helper lemmas about the first-fit scanner and lists. -/

theorem updateFirst_eq_none_iff (p : TrackState → Bool) (f : TrackState → TrackState)
    (l : List TrackState) :
    updateFirst p f l = none ↔ ∀ tr ∈ l, p tr = false := by
  induction l with
  | nil => simp [updateFirst]
  | cons tr rest ih =>
    by_cases hp : p tr
    · simp [updateFirst, hp]
    · cases hrec : updateFirst p f rest with
      | none => simp [updateFirst, hp, hrec, List.forall_mem_cons, ← ih]
      | some pr =>
        simp only [updateFirst, hp, Bool.false_eq_true, if_false, hrec,
          List.forall_mem_cons]
        constructor
        · intro h; cases h
        · rintro ⟨-, hall⟩
          rw [ih.mpr hall] at hrec
          cases hrec

theorem findIdx?_some_updateFirst (p : TrackState → Bool) (f : TrackState → TrackState)
    {l : List TrackState} {j : Nat} (hj : l.findIdx? p = some j) :
    ∃ sel, l[j]? = some sel ∧ p sel = true ∧
      updateFirst p f l = some (sel, l.set j (f sel)) := by
  induction l generalizing j with
  | nil => simp [List.findIdx?] at hj
  | cons tr rest ih =>
    rw [List.findIdx?_cons] at hj
    by_cases hp : p tr
    · rw [if_pos hp] at hj
      obtain rfl : (0 : Nat) = j := Option.some.inj hj
      exact ⟨tr, by simp, hp, by simp [updateFirst, hp]⟩
    · rw [if_neg hp, List.findIdx?_succ] at hj
      cases hrest : rest.findIdx? p with
      | none => rw [hrest] at hj; cases hj
      | some j' =>
        rw [hrest] at hj
        obtain rfl : j' + 1 = j := Option.some.inj hj
        obtain ⟨sel, h1, h2, h3⟩ := ih hrest
        refine ⟨sel, by simpa using h1, h2, ?_⟩
        rw [show (tr :: rest).set (j' + 1) (f sel) = tr :: rest.set j' (f sel) from rfl]
        rw [updateFirst, if_neg (by simp [hp]), h3]

theorem updateFirst_set_first (p : TrackState → Bool) (f : TrackState → TrackState)
    {l : List TrackState} {j : Nat} {a : TrackState}
    (hl : ∀ x ∈ l, p x = false) (ha : p a = true) (hj : j < l.length) :
    updateFirst p f (l.set j a) = some (a, l.set j (f a)) := by
  induction l generalizing j with
  | nil => simp at hj
  | cons tr rest ih =>
    cases j with
    | zero =>
      rw [show (tr :: rest).set 0 a = a :: rest from rfl,
        show (tr :: rest).set 0 (f a) = f a :: rest from rfl]
      rw [updateFirst, if_pos ha]
    | succ j' =>
      have hp : p tr = false := hl tr (.head _)
      rw [show (tr :: rest).set (j' + 1) a = tr :: rest.set j' a from rfl,
        show (tr :: rest).set (j' + 1) (f a) = tr :: rest.set j' (f a) from rfl]
      rw [updateFirst, if_neg (by simp [hp]),
        ih (fun x hx => hl x (.tail _ hx)) (Nat.lt_of_succ_lt_succ hj)]

theorem updateFirst_append_last (p : TrackState → Bool) (f : TrackState → TrackState)
    {l : List TrackState} {a : TrackState}
    (hl : ∀ x ∈ l, p x = false) (ha : p a = true) :
    updateFirst p f (l ++ [a]) = some (a, l ++ [f a]) := by
  induction l with
  | nil => simp [updateFirst, ha]
  | cons tr rest ih =>
    have hp : p tr = false := hl tr (.head _)
    rw [List.cons_append, updateFirst, if_neg (by simp [hp]),
      ih (fun x hx => hl x (.tail _ hx)), List.cons_append]

theorem find?_set_first (p : TrackState → Bool)
    {l : List TrackState} {j : Nat} {a : TrackState}
    (hl : ∀ x ∈ l, p x = false) (ha : p a = true) (hj : j < l.length) :
    (l.set j a).find? p = some a := by
  induction l generalizing j with
  | nil => simp at hj
  | cons tr rest ih =>
    cases j with
    | zero =>
      rw [show (tr :: rest).set 0 a = a :: rest from rfl]
      simp [List.find?_cons, ha]
    | succ j' =>
      have hp : p tr = false := hl tr (.head _)
      rw [show (tr :: rest).set (j' + 1) a = tr :: rest.set j' a from rfl]
      simp only [List.find?_cons, hp]
      exact ih (fun x hx => hl x (.tail _ hx)) (Nat.lt_of_succ_lt_succ hj)

theorem find?_append_last (p : TrackState → Bool)
    {l : List TrackState} {a : TrackState}
    (hl : ∀ x ∈ l, p x = false) (ha : p a = true) :
    (l ++ [a]).find? p = some a := by
  induction l with
  | nil => simp [List.find?_cons, ha]
  | cons tr rest ih =>
    have hp : p tr = false := hl tr (.head _)
    rw [List.cons_append]
    simp only [List.find?_cons, hp]
    exact ih fun x hx => hl x (.tail _ hx)

theorem nodup_set_of_not_mem {α : Type} {l : List α} {j : Nat} {a : α}
    (h : l.Nodup) (ha : a ∉ l) : (l.set j a).Nodup := by
  induction l generalizing j with
  | nil => simp
  | cons tr rest ih =>
    cases j with
    | zero =>
      rw [show (tr :: rest).set 0 a = a :: rest from rfl]
      exact List.nodup_cons.mpr
        ⟨fun hm => ha (.tail _ hm), (List.nodup_cons.mp h).2⟩
    | succ j' =>
      rw [show (tr :: rest).set (j' + 1) a = tr :: rest.set j' a from rfl]
      obtain ⟨htr, hrest⟩ := List.nodup_cons.mp h
      refine List.nodup_cons.mpr ⟨?_, ih hrest fun hm => ha (.tail _ hm)⟩
      intro hm
      rcases List.mem_or_eq_of_mem_set hm with hm' | rfl
      · exact htr hm'
      · exact ha (.head _)

theorem mem_set_of_mem_of_ne {α : Type} {l : List α} {j : Nat} {sel a x : α}
    (hsel : l[j]? = some sel) (hx : x ∈ l) (hne : x ≠ sel) : x ∈ l.set j a := by
  induction l generalizing j with
  | nil => cases hx
  | cons tr rest ih =>
    cases j with
    | zero =>
      obtain rfl : tr = sel := by simpa using hsel
      rw [show (tr :: rest).set 0 a = a :: rest from rfl]
      rcases List.mem_cons.mp hx with rfl | hx'
      · exact absurd rfl hne
      · exact .tail _ hx'
    | succ j' =>
      rw [show (tr :: rest).set (j' + 1) a = tr :: rest.set j' a from rfl]
      rcases List.mem_cons.mp hx with rfl | hx'
      · exact .head _
      · exact .tail _ (ih (by simpa using hsel) hx')

theorem countP_set_balance (p : α → Bool) (a : α) {l : List α} {j : Nat} {sel : α}
    (hsel : l[j]? = some sel) :
    (l.set j a).countP p + (if p sel then 1 else 0)
      = l.countP p + (if p a then 1 else 0) := by
  induction l generalizing j with
  | nil => simp at hsel
  | cons tr rest ih =>
    cases j with
    | zero =>
      obtain rfl : tr = sel := by simpa using hsel
      rw [show (tr :: rest).set 0 a = a :: rest from rfl]
      rw [List.countP_cons, List.countP_cons]
      omega
    | succ j' =>
      rw [show (tr :: rest).set (j' + 1) a = tr :: rest.set j' a from rfl]
      rw [List.countP_cons, List.countP_cons]
      have := ih (by simpa using hsel)
      omega

theorem set_of_getElem?_eq {α : Type} {l : List α} {j : Nat} {v : α}
    (h : l[j]? = some v) : l.set j v = l := by
  induction l generalizing j with
  | nil => simp at h
  | cons tr rest ih =>
    cases j with
    | zero =>
      obtain rfl : tr = v := by simpa using h
      rfl
    | succ j' =>
      rw [show (tr :: rest).set (j' + 1) v = tr :: rest.set j' v from rfl,
        ih (by simpa using h)]

theorem eq_of_tagOf_eq {l : List TrackState} (hnd : (l.map tagOf).Nodup)
    {x y : TrackState} (hx : x ∈ l) (hy : y ∈ l) (ht : tagOf x = tagOf y) :
    x = y := by
  obtain ⟨i, hi, rfl⟩ := List.mem_iff_getElem.mp hx
  obtain ⟨j, hj, rfl⟩ := List.mem_iff_getElem.mp hy
  have hi' : i < (l.map tagOf).length := by simpa using hi
  have hj' : j < (l.map tagOf).length := by simpa using hj
  have hmap : (l.map tagOf).get ⟨i, hi'⟩ = (l.map tagOf).get ⟨j, hj'⟩ := by
    simp only [List.get_eq_getElem, List.getElem_map]
    exact ht
  have hij : i = j := by
    have := (List.Nodup.get_inj_iff hnd).mp hmap
    simpa using this
  subst hij
  rfl

theorem lookupKey_mem {α : Type} [DecidableEq α] {k : α} {l : List (α × Nat)} {v : Nat}
    (h : lookupKey k l = some v) : (k, v) ∈ l := by
  induction l with
  | nil => cases h
  | cons kv rest ih =>
    obtain ⟨k', v'⟩ := kv
    by_cases hk : k' = k
    · subst hk
      rw [lookupKey, if_pos rfl] at h
      obtain rfl : v' = v := Option.some.inj h
      exact .head _
    · rw [lookupKey, if_neg hk] at h
      exact .tail _ (ih h)

theorem updateFirst_eq_some_shape (p : TrackState → Bool) (f : TrackState → TrackState)
    {l l' : List TrackState} {sel : TrackState}
    (h : updateFirst p f l = some (sel, l')) :
    ∃ j, l[j]? = some sel ∧ p sel = true ∧ l' = l.set j (f sel) ∧
      l.findIdx? p = some j := by
  cases hIdx : l.findIdx? p with
  | none =>
    rw [(updateFirst_eq_none_iff p f l).mpr (List.findIdx?_eq_none_iff.mp hIdx)] at h
    cases h
  | some j =>
    obtain ⟨sel', h1, h2, h3⟩ := findIdx?_some_updateFirst p f hIdx
    rw [h] at h3
    obtain ⟨rfl, rfl⟩ : sel = sel' ∧ l' = l.set j (f sel') :=
      Prod.mk.inj (Option.some.inj h3)
    exact ⟨j, h1, h2, rfl, rfl⟩

theorem set_append_singleton {α : Type} (l : List α) (x y : α) :
    (l ++ [x]).set l.length y = l ++ [y] := by
  induction l with
  | nil => rfl
  | cons a rest ih => simp [ih]

theorem keyWF_android {t : Tracker} (hwf : keyWF t = true) {u n sid : Nat}
    (h : ((u, n), sid) ∈ t.android_track_set_ids) :
    ∃ s, t.track_sets[sid]? = some s ∧ s.key = .android u n ∧
      s.nesting_behaviour = .kLegacySaturatingUnnestable := by
  rw [keyWF, Bool.and_eq_true, List.all_eq_true, List.all_eq_true] at hwf
  have hx := hwf.1 _ h
  cases hs : t.track_sets[sid]? with
  | none => rw [hs] at hx; simp at hx
  | some s =>
    rw [hs] at hx
    simp only [decide_eq_true_eq] at hx
    exact ⟨s, rfl, hx.1, hx.2⟩

theorem keyWF_frame {t : Tracker} (hwf : keyWF t = true) {u n sid : Nat}
    (h : ((u, n), sid) ∈ t.frame_timeline_track_set_ids) :
    ∃ s, t.track_sets[sid]? = some s ∧ s.key = .frameTimeline u n := by
  rw [keyWF, Bool.and_eq_true, List.all_eq_true, List.all_eq_true] at hwf
  have hx := hwf.2 _ h
  cases hs : t.track_sets[sid]? with
  | none => rw [hs] at hx; simp at hx
  | some s =>
    rw [hs] at hx
    simp only [decide_eq_true_eq] at hx
    exact ⟨s, rfl, hx⟩

/-! ### Claim theorems. -/

/-- C1: Interning is idempotent and kind-separated: for every grouping key,
repeated interning calls with an equal key of the same kind
(`InternGlobalTrackSet` with the same name; `InternAndroidSet` or
`InternFrameTimelineSet` with the same upid and name) return the same
`TrackSetId` (and do not change the tracker further), and for every
(upid, name), `InternAndroidSet` and `InternFrameTimelineSet` with those
identical field values return distinct `TrackSetId`s (stated under the
interning-map well-formedness invariant `keyWF`, which holds for every tracker
reachable from `Tracker.init`). -/
theorem intern_idempotent_and_kind_separated :
    (∀ (t : Tracker) (name : Nat),
      Tracker.InternGlobalTrackSet (t.InternGlobalTrackSet name).2 name
        = t.InternGlobalTrackSet name) ∧
    (∀ (t : Tracker) (upid name : Nat),
      Tracker.InternAndroidSet (t.InternAndroidSet upid name).2 upid name
        = t.InternAndroidSet upid name) ∧
    (∀ (t : Tracker) (upid name : Nat),
      Tracker.InternFrameTimelineSet (t.InternFrameTimelineSet upid name).2 upid name
        = t.InternFrameTimelineSet upid name) ∧
    (∀ (t : Tracker) (upid name : Nat), keyWF t = true →
      (t.InternAndroidSet upid name).1
        ≠ ((t.InternAndroidSet upid name).2.InternFrameTimelineSet upid name).1) := by
  refine ⟨?_, ?_, ?_, ?_⟩
  · intro t name
    cases h : lookupKey name t.global_track_set_ids with
    | some sid => simp [Tracker.InternGlobalTrackSet, h]
    | none => simp [Tracker.InternGlobalTrackSet, h, lookupKey]
  · intro t upid name
    cases h : lookupKey (upid, name) t.android_track_set_ids with
    | some sid => simp [Tracker.InternAndroidSet, h]
    | none => simp [Tracker.InternAndroidSet, h, lookupKey]
  · intro t upid name
    cases h : lookupKey (upid, name) t.frame_timeline_track_set_ids with
    | some sid => simp [Tracker.InternFrameTimelineSet, h]
    | none => simp [Tracker.InternFrameTimelineSet, h, lookupKey]
  · intro t upid name hwf
    cases hA : lookupKey (upid, name) t.android_track_set_ids with
    | some sidA =>
      obtain ⟨sA, hsA, hkA, -⟩ := keyWF_android hwf (lookupKey_mem hA)
      cases hF : lookupKey (upid, name) t.frame_timeline_track_set_ids with
      | some sidF =>
        obtain ⟨sF, hsF, hkF⟩ := keyWF_frame hwf (lookupKey_mem hF)
        simp only [Tracker.InternAndroidSet, hA, Tracker.InternFrameTimelineSet, hF]
        intro hEq
        rw [hEq, hsF] at hsA
        obtain rfl : sF = sA := Option.some.inj hsA
        rw [hkA] at hkF
        cases hkF
      | none =>
        have hlt : sidA < t.track_sets.length := by
          obtain ⟨hlt, -⟩ := List.getElem?_eq_some.mp hsA
          exact hlt
        simp only [Tracker.InternAndroidSet, hA, Tracker.InternFrameTimelineSet, hF]
        omega
    | none =>
      cases hF : lookupKey (upid, name) t.frame_timeline_track_set_ids with
      | some sidF =>
        obtain ⟨sF, hsF, hkF⟩ := keyWF_frame hwf (lookupKey_mem hF)
        have hlt : sidF < t.track_sets.length := by
          obtain ⟨hlt, -⟩ := List.getElem?_eq_some.mp hsF
          exact hlt
        simp only [Tracker.InternAndroidSet, hA, Tracker.InternFrameTimelineSet, hF]
        omega
      | none =>
        simp only [Tracker.InternAndroidSet, hA, Tracker.InternFrameTimelineSet, hF]
        simp

/-- Witness for C1: concrete instantiation of the kind-separation part at a
fresh tracker (hypothesis `keyWF` discharged by `decide`). -/
theorem intern_idempotent_and_kind_separated_witness :
    (Tracker.init.InternAndroidSet 1 2).1
      ≠ ((Tracker.init.InternAndroidSet 1 2).2.InternFrameTimelineSet 1 2).1 :=
  intern_idempotent_and_kind_separated.2.2.2 Tracker.init 1 2 (by decide)

/-- C2: For every interned set and every cookie, `Begin` follows the
three-step first-fit algorithm in insertion order: it returns the first track
already holding that cookie if one exists (bumping its open count); otherwise
it re-tags the first track whose open count is 0 with the cookie and open
count 1 and returns it; otherwise it creates a new track appended to the set,
tagged with the cookie and open count 1, and returns it. -/
theorem Begin_first_fit (t : Tracker) (sid : Nat) (c : Int) (set : TrackSet)
    (hs : t.track_sets[sid]? = some set) :
    (∀ j sel, set.tracks.findIdx? (tagMatches c) = some j →
      set.tracks[j]? = some sel →
      t.Begin sid c = some (sel.id,
        { t with
          track_sets := t.track_sets.set sid
            { set with tracks := set.tracks.set j (bumpCookie sel) }
          violations := t.violations
            + (if beginViolation set.nesting_behaviour sel then 1 else 0) })) ∧
    (set.tracks.findIdx? (tagMatches c) = none →
      ∀ j sel, set.tracks.findIdx? isFree = some j → set.tracks[j]? = some sel →
        t.Begin sid c = some (sel.id,
          { t with
            track_sets := t.track_sets.set sid
              { set with tracks := set.tracks.set j (retagCookie c sel) } })) ∧
    (set.tracks.findIdx? (tagMatches c) = none →
      set.tracks.findIdx? isFree = none →
      t.Begin sid c = some (t.next_track_id,
        { t with
          track_sets := t.track_sets.set sid
            { set with tracks := set.tracks
                ++ [{ id := t.next_track_id, occupancy := .cookie c 1 }] }
          next_track_id := t.next_track_id + 1 })) := by
  refine ⟨?_, ?_, ?_⟩
  · intro j sel hj hsel
    obtain ⟨sel', h1, h2, h3⟩ := findIdx?_some_updateFirst (tagMatches c) bumpCookie hj
    rw [hsel] at h1
    obtain rfl : sel = sel' := Option.some.inj h1
    simp only [Tracker.Begin, hs, h3]
  · intro hnone j sel hj hsel
    have h0 : updateFirst (tagMatches c) bumpCookie set.tracks = none :=
      (updateFirst_eq_none_iff _ _ _).mpr (List.findIdx?_eq_none_iff.mp hnone)
    obtain ⟨sel', h1, h2, h3⟩ := findIdx?_some_updateFirst isFree (retagCookie c) hj
    rw [hsel] at h1
    obtain rfl : sel = sel' := Option.some.inj h1
    simp only [Tracker.Begin, hs, h0, h3]
  · intro hnone hnofree
    have h0 : updateFirst (tagMatches c) bumpCookie set.tracks = none :=
      (updateFirst_eq_none_iff _ _ _).mpr (List.findIdx?_eq_none_iff.mp hnone)
    have h1 : updateFirst isFree (retagCookie c) set.tracks = none :=
      (updateFirst_eq_none_iff _ _ _).mpr (List.findIdx?_eq_none_iff.mp hnofree)
    simp only [Tracker.Begin, hs, h0, h1]

/-- Witness for C2: the step-3 branch at a concrete one-set tracker. -/
theorem Begin_first_fit_witness :
    tG.Begin 0 5 = some (0,
      { tG with
        track_sets := tG.track_sets.set 0
          { key := .global 10, nesting_behaviour := .kUnnestable,
            tracks := [{ id := 0, occupancy := .cookie 5 1 }] }
        next_track_id := 1 }) :=
  (Begin_first_fit tG 0 5
      { key := .global 10, nesting_behaviour := .kUnnestable, tracks := [] }
      (by decide)).2.2 (by decide) (by decide)

/-- C4: For every set and cookie with a track currently holding that cookie
with positive open count, `End` decrements that track's open count, returns
that track's identifier regardless of the resulting count, and exactly when
the count reaches 0 the track satisfies the freeness predicate scanned by
step 2 of `Begin`, becoming selectable for a different cookie on a subsequent
call. -/
theorem End_decrements_and_frees (t : Tracker) (sid : Nat) (c : Int)
    (set : TrackSet) (j : Nat) (sel : TrackState) (n : Nat)
    (hs : t.track_sets[sid]? = some set)
    (hj : set.tracks.findIdx? (tagMatches c) = some j)
    (hsel : set.tracks[j]? = some sel)
    (hocc : sel.occupancy = .cookie c n) (hn : 0 < n) :
    t.End sid c = some (some sel.id,
      { t with
        track_sets := t.track_sets.set sid
          { set with tracks := set.tracks.set j (decCookie sel) } }) ∧
    (decCookie sel).occupancy = .cookie c (n - 1) ∧
    (isFree (decCookie sel) = true ↔ n = 1) := by
  obtain ⟨sel', h1, h2, h3⟩ := findIdx?_some_updateFirst (tagMatches c) decCookie hj
  rw [hsel] at h1
  obtain rfl : sel = sel' := Option.some.inj h1
  refine ⟨by simp only [Tracker.End, hs, h3], ?_, ?_⟩
  · rw [decCookie, hocc]
  · rw [decCookie, hocc]
    simp only [isFree, decide_eq_true_eq]
    omega

/-- Witness for C4: ending cookie 5 on the one-track strict set frees it. -/
theorem End_decrements_and_frees_witness :
    tB1.End 0 5 = some (some 0,
      { tB1 with
        track_sets := tB1.track_sets.set 0
          { key := .global 10, nesting_behaviour := .kUnnestable,
            tracks := [{ id := 0, occupancy := .cookie 5 1 }].set 0
              (decCookie { id := 0, occupancy := .cookie 5 1 }) } }) ∧
    (decCookie { id := 0, occupancy := .cookie 5 1 }).occupancy = .cookie 5 0 ∧
    (isFree (decCookie { id := 0, occupancy := .cookie 5 1 }) = true ↔ 1 = 1) :=
  End_decrements_and_frees tB1 0 5
    { key := .global 10, nesting_behaviour := .kUnnestable,
      tracks := [{ id := 0, occupancy := .cookie 5 1 }] }
    0 { id := 0, occupancy := .cookie 5 1 } 1
    (by decide) (by decide) (by decide) (by decide) (by decide)

/-- C5: For every set, calling `End` when no track in the set holds that
cookie is a protocol violation: the diagnostic counter is incremented, no
track identifier is returned, and everything else — the interning maps, every
track set (including the addressed one) and the allocator — is left exactly
as it was. -/
theorem End_unmatched_is_violation (t : Tracker) (sid : Nat) (c : Int)
    (set : TrackSet) (hs : t.track_sets[sid]? = some set)
    (hnone : ∀ tr ∈ set.tracks, tagMatches c tr = false) :
    t.End sid c = some (none, { t with violations := t.violations + 1 }) := by
  have h1 : updateFirst (tagMatches c) decCookie set.tracks = none :=
    (updateFirst_eq_none_iff _ _ _).mpr hnone
  simp only [Tracker.End, hs, h1]

/-- Witness for C5: ending the never-begun cookie 7 on a concrete set. -/
theorem End_unmatched_is_violation_witness :
    tB1.End 0 7 = some (none, { tB1 with violations := tB1.violations + 1 }) :=
  End_unmatched_is_violation tB1 0 7
    { key := .global 10, nesting_behaviour := .kUnnestable,
      tracks := [{ id := 0, occupancy := .cookie 5 1 }] }
    (by decide) (by decide)

/-- C9: Calling `Scoped` on a set interned via `InternAndroidSet` (whose kind
does not support it) is a usage error that fails loudly: the call is rejected
(`none`) and no track identifier is returned (stated under the interning-map
invariant `keyWF`). -/
theorem Scoped_android_usage_error (t : Tracker) (upid name : Nat)
    (hwf : keyWF t = true) (ts dur : Int) :
    ((t.InternAndroidSet upid name).2).Scoped
      (t.InternAndroidSet upid name).1 ts dur = none := by
  cases hA : lookupKey (upid, name) t.android_track_set_ids with
  | some sidA =>
    obtain ⟨sA, hsA, hkA, -⟩ := keyWF_android hwf (lookupKey_mem hA)
    simp only [Tracker.InternAndroidSet, hA]
    simp only [Tracker.Scoped, hsA, hkA]
    simp [scopedSupported]
  | none =>
    simp only [Tracker.InternAndroidSet, hA]
    have hget : (t.track_sets ++
        [{ key := .android upid name,
           nesting_behaviour := .kLegacySaturatingUnnestable,
           tracks := [] : TrackSet }])[t.track_sets.length]?
        = some { key := .android upid name,
                 nesting_behaviour := .kLegacySaturatingUnnestable,
                 tracks := [] } :=
      List.getElem?_concat_length ..
    simp only [Tracker.Scoped, hget]
    simp [scopedSupported]

/-- Witness for C9: `Scoped` on the android set of a fresh tracker. -/
theorem Scoped_android_usage_error_witness :
    ((Tracker.init.InternAndroidSet 1 2).2).Scoped
      (Tracker.init.InternAndroidSet 1 2).1 100 5 = none :=
  Scoped_android_usage_error Tracker.init 1 2 (by decide) 100 5

theorem frameConcl_mk (t : Tracker) (sid : Nat) (set newset : TrackSet)
    (t' : Tracker) (hs : t.track_sets[sid]? = some set)
    (h1 : t'.global_track_set_ids = t.global_track_set_ids)
    (h2 : t'.android_track_set_ids = t.android_track_set_ids)
    (h3 : t'.frame_timeline_track_set_ids = t.frame_timeline_track_set_ids)
    (h4 : t'.track_sets = t.track_sets.set sid newset)
    (hk : newset.key = set.key)
    (hnb : newset.nesting_behaviour = set.nesting_behaviour)
    (htr : (∃ j tr', newset.tracks = set.tracks.set j tr') ∨
      ∃ tr, newset.tracks = set.tracks ++ [tr]) :
    FrameConcl t sid t' := by
  have hlt : sid < t.track_sets.length := (List.getElem?_eq_some.mp hs).1
  refine ⟨h1, h2, h3, by rw [h4, List.length_set], ?_, set, newset, hs, ?_, hk, hnb, htr⟩
  · intro j hj
    rw [h4, List.getElem?_set_ne (Ne.symm hj)]
  · rw [h4, List.getElem?_set_self hlt]

/-- C10: Frame property: every `Begin`, `End` or `Scoped` call that succeeds
on a valid set identifier leaves the three interning maps, the number of track
sets, and the state of every track set other than the addressed one
unchanged; within the addressed set (whose key and policy are preserved) it
changes the track list by at most one in-place update or one append, never
removing or reordering tracks. -/
theorem ops_frame_property (t : Tracker) (sid : Nat) :
    (∀ c tid t', t.Begin sid c = some (tid, t') → FrameConcl t sid t') ∧
    (∀ c r t', t.End sid c = some (r, t') → FrameConcl t sid t') ∧
    (∀ ts dur tid t', t.Scoped sid ts dur = some (tid, t') → FrameConcl t sid t') := by
  refine ⟨?_, ?_, ?_⟩
  · intro c tid t' hb
    cases hs : t.track_sets[sid]? with
    | none => simp only [Tracker.Begin, hs] at hb; exact Option.noConfusion hb
    | some set =>
      simp only [Tracker.Begin, hs] at hb
      cases hu1 : updateFirst (tagMatches c) bumpCookie set.tracks with
      | some pr =>
        obtain ⟨sel, tracks'⟩ := pr
        simp only [hu1] at hb
        obtain ⟨rfl, rfl⟩ : sel.id = tid ∧ _ = t' := Prod.mk.inj (Option.some.inj hb)
        obtain ⟨j, -, -, hshape, -⟩ := updateFirst_eq_some_shape _ _ hu1
        exact frameConcl_mk t sid set _ _ hs rfl rfl rfl rfl rfl rfl
          (.inl ⟨j, bumpCookie sel, hshape⟩)
      | none =>
        simp only [hu1] at hb
        cases hu2 : updateFirst isFree (retagCookie c) set.tracks with
        | some pr =>
          obtain ⟨sel, tracks'⟩ := pr
          simp only [hu2] at hb
          obtain ⟨rfl, rfl⟩ : sel.id = tid ∧ _ = t' := Prod.mk.inj (Option.some.inj hb)
          obtain ⟨j, -, -, hshape, -⟩ := updateFirst_eq_some_shape _ _ hu2
          exact frameConcl_mk t sid set _ _ hs rfl rfl rfl rfl rfl rfl
            (.inl ⟨j, retagCookie c sel, hshape⟩)
        | none =>
          simp only [hu2] at hb
          obtain ⟨rfl, rfl⟩ : t.next_track_id = tid ∧ _ = t' :=
            Prod.mk.inj (Option.some.inj hb)
          exact frameConcl_mk t sid set _ _ hs rfl rfl rfl rfl rfl rfl
            (.inr ⟨_, rfl⟩)
  · intro c r t' he
    cases hs : t.track_sets[sid]? with
    | none => simp only [Tracker.End, hs] at he; exact Option.noConfusion he
    | some set =>
      simp only [Tracker.End, hs] at he
      cases hu1 : updateFirst (tagMatches c) decCookie set.tracks with
      | some pr =>
        obtain ⟨sel, tracks'⟩ := pr
        simp only [hu1] at he
        obtain ⟨rfl, rfl⟩ : some sel.id = r ∧ _ = t' := Prod.mk.inj (Option.some.inj he)
        obtain ⟨j, -, -, hshape, -⟩ := updateFirst_eq_some_shape _ _ hu1
        exact frameConcl_mk t sid set _ _ hs rfl rfl rfl rfl rfl rfl
          (.inl ⟨j, decCookie sel, hshape⟩)
      | none =>
        simp only [hu1] at he
        obtain ⟨rfl, rfl⟩ : (none : Option Nat) = r ∧ _ = t' :=
          Prod.mk.inj (Option.some.inj he)
        exact frameConcl_mk t sid set set _ hs rfl rfl rfl
          (set_of_getElem?_eq hs).symm rfl rfl
          (.inl ⟨set.tracks.length, { id := 0, occupancy := .range 0 },
            (List.set_eq_of_length_le (Nat.le_refl _)).symm⟩)
  · intro ts dur tid t' hsc
    cases hs : t.track_sets[sid]? with
    | none => simp only [Tracker.Scoped, hs] at hsc; exact Option.noConfusion hsc
    | some set =>
      simp only [Tracker.Scoped, hs] at hsc
      by_cases hsup : scopedSupported set.key = true
      · rw [if_pos hsup] at hsc
        cases hu1 : updateFirst (rangeFreeAt ts) (setRangeEnd (ts + dur)) set.tracks with
        | some pr =>
          obtain ⟨sel, tracks'⟩ := pr
          simp only [hu1] at hsc
          obtain ⟨rfl, rfl⟩ : sel.id = tid ∧ _ = t' := Prod.mk.inj (Option.some.inj hsc)
          obtain ⟨j, -, -, hshape, -⟩ := updateFirst_eq_some_shape _ _ hu1
          exact frameConcl_mk t sid set _ _ hs rfl rfl rfl rfl rfl rfl
            (.inl ⟨j, setRangeEnd (ts + dur) sel, hshape⟩)
        | none =>
          simp only [hu1] at hsc
          obtain ⟨rfl, rfl⟩ : t.next_track_id = tid ∧ _ = t' :=
            Prod.mk.inj (Option.some.inj hsc)
          exact frameConcl_mk t sid set _ _ hs rfl rfl rfl rfl rfl rfl
            (.inr ⟨_, rfl⟩)
      · rw [if_neg hsup] at hsc
        cases hsc

/-- Witness for C10: the frame condition at a concrete `Begin` call. -/
theorem ops_frame_property_witness : FrameConcl tG 0 tB1 :=
  (ops_frame_property tG 0).1 5 0 tB1 (by decide)

theorem withTracks_length (t : Tracker) (sid : Nat) (key : SetKey)
    (nb : NestingBehaviour) (tracks : List TrackState) (vio : Nat) :
    (withTracks t sid key nb tracks vio).track_sets.length
      = t.track_sets.length := by
  simp [withTracks]

theorem withTracks_get (t : Tracker) (sid : Nat) (key : SetKey)
    (nb : NestingBehaviour) (tracks : List TrackState) (vio : Nat)
    (h : sid < t.track_sets.length) :
    (withTracks t sid key nb tracks vio).track_sets[sid]?
      = some ⟨key, nb, tracks⟩ :=
  List.getElem?_set_self h

theorem numTracks_withTracks (t : Tracker) (sid : Nat) (key : SetKey)
    (nb : NestingBehaviour) (tracks : List TrackState) (vio : Nat)
    (h : sid < t.track_sets.length) :
    numTracks (withTracks t sid key nb tracks vio) sid = tracks.length := by
  rw [numTracks, withTracks_get t sid key nb tracks vio h]

theorem Begin_on_tagged (t1 : Tracker) (sid : Nat) (c : Int) (key : SetKey)
    (nb : NestingBehaviour) (l : List TrackState) (j : Nat) (tid : Nat) (v : Nat)
    (hl : ∀ x ∈ l, tagMatches c x = false) (hj : j < l.length)
    (hs1 : t1.track_sets[sid]? =
      some ⟨key, nb, l.set j { id := tid, occupancy := .cookie c v }⟩) :
    t1.Begin sid c = some (tid,
      withTracks t1 sid key nb
        (l.set j { id := tid, occupancy := .cookie c (v + 1) })
        (t1.violations + if nb = .kUnnestable ∧ 0 < v then 1 else 0)) := by
  have hb : updateFirst (tagMatches c) bumpCookie
      (l.set j { id := tid, occupancy := .cookie c v })
      = some ({ id := tid, occupancy := .cookie c v },
        l.set j { id := tid, occupancy := .cookie c (v + 1) }) :=
    updateFirst_set_first (tagMatches c) bumpCookie hl (by simp [tagMatches]) hj
  simp only [Tracker.Begin, hs1, hb, withTracks]
  cases nb <;> simp [beginViolation]

theorem End_on_tagged (t1 : Tracker) (sid : Nat) (c : Int) (key : SetKey)
    (nb : NestingBehaviour) (l : List TrackState) (j : Nat) (tid : Nat) (v : Nat)
    (hl : ∀ x ∈ l, tagMatches c x = false) (hj : j < l.length)
    (hs1 : t1.track_sets[sid]? =
      some ⟨key, nb, l.set j { id := tid, occupancy := .cookie c v }⟩) :
    t1.End sid c = some (some tid,
      withTracks t1 sid key nb
        (l.set j { id := tid, occupancy := .cookie c (v - 1) })
        t1.violations) := by
  have hb : updateFirst (tagMatches c) decCookie
      (l.set j { id := tid, occupancy := .cookie c v })
      = some ({ id := tid, occupancy := .cookie c v },
        l.set j { id := tid, occupancy := .cookie c (v - 1) }) :=
    updateFirst_set_first (tagMatches c) decCookie hl (by simp [tagMatches]) hj
  simp only [Tracker.End, hs1, hb, withTracks]

theorem cookieState_on_tagged (t1 : Tracker) (sid : Nat) (c : Int) (key : SetKey)
    (nb : NestingBehaviour) (l : List TrackState) (j : Nat) (tid : Nat) (v : Nat)
    (hl : ∀ x ∈ l, tagMatches c x = false) (hj : j < l.length)
    (hs1 : t1.track_sets[sid]? =
      some ⟨key, nb, l.set j { id := tid, occupancy := .cookie c v }⟩) :
    cookieState t1 sid c = some (tid, v) := by
  have hf : (l.set j { id := tid, occupancy := .cookie c v }).find? (tagMatches c)
      = some { id := tid, occupancy := .cookie c v } :=
    find?_set_first (tagMatches c) hl (by simp [tagMatches]) hj
  simp only [cookieState, hs1, hf]

theorem Begin_fresh_cookie (t : Tracker) (sid : Nat) (c : Int) (set : TrackSet)
    (hs : t.track_sets[sid]? = some set)
    (hfresh : ∀ x ∈ set.tracks, tagMatches c x = false) :
    ∃ (l : List TrackState) (j tid : Nat) (base : Tracker),
      (∀ x ∈ l, tagMatches c x = false) ∧ j < l.length ∧
      base.track_sets = t.track_sets ∧ base.violations = t.violations ∧
      t.Begin sid c = some (tid,
        withTracks base sid set.key set.nesting_behaviour
          (l.set j { id := tid, occupancy := .cookie c 1 }) base.violations) := by
  have h0 : updateFirst (tagMatches c) bumpCookie set.tracks = none :=
    (updateFirst_eq_none_iff _ _ _).mpr hfresh
  cases hu2 : updateFirst isFree (retagCookie c) set.tracks with
  | some pr =>
    obtain ⟨sel, tracks'⟩ := pr
    obtain ⟨j, hsel, hfree, hshape, -⟩ := updateFirst_eq_some_shape _ _ hu2
    refine ⟨set.tracks, j, sel.id, t, hfresh,
      (List.getElem?_eq_some.mp hsel).1, rfl, rfl, ?_⟩
    simp only [Tracker.Begin, hs, h0, hu2, withTracks, hshape, retagCookie]
  | none =>
    refine ⟨set.tracks ++ [{ id := t.next_track_id, occupancy := .range 0 }],
      set.tracks.length, t.next_track_id,
      { t with next_track_id := t.next_track_id + 1 }, ?_, by simp, rfl, rfl, ?_⟩
    · intro x hx
      rcases List.mem_append.mp hx with hx' | hx'
      · exact hfresh x hx'
      · obtain rfl := List.mem_singleton.mp hx'
        rfl
    · simp only [Tracker.Begin, hs, h0, hu2, withTracks, set_append_singleton]

theorem Begin_on_tagged_chain (t1 : Tracker) (sid : Nat) (c : Int) (key : SetKey)
    (nb : NestingBehaviour) (l : List TrackState) (j : Nat) (tid : Nat) (v : Nat)
    (hl : ∀ x ∈ l, tagMatches c x = false) (hj : j < l.length)
    (hs1 : t1.track_sets[sid]? =
      some ⟨key, nb, l.set j { id := tid, occupancy := .cookie c v }⟩) :
    ∃ t2, t1.Begin sid c = some (tid, t2) ∧
      t2.track_sets[sid]? =
        some ⟨key, nb, l.set j { id := tid, occupancy := .cookie c (v + 1) }⟩ ∧
      t2.violations = t1.violations
        + (if nb = .kUnnestable ∧ 0 < v then 1 else 0) ∧
      numTracks t2 sid = l.length := by
  have hsl : sid < t1.track_sets.length := (List.getElem?_eq_some.mp hs1).1
  refine ⟨_, Begin_on_tagged t1 sid c key nb l j tid v hl hj hs1, ?_, ?_, ?_⟩
  · exact withTracks_get _ _ _ _ _ _ hsl
  · simp [withTracks]
  · rw [numTracks_withTracks _ _ _ _ _ _ hsl]
    simp

theorem End_on_tagged_chain (t1 : Tracker) (sid : Nat) (c : Int) (key : SetKey)
    (nb : NestingBehaviour) (l : List TrackState) (j : Nat) (tid : Nat) (v : Nat)
    (hl : ∀ x ∈ l, tagMatches c x = false) (hj : j < l.length)
    (hs1 : t1.track_sets[sid]? =
      some ⟨key, nb, l.set j { id := tid, occupancy := .cookie c v }⟩) :
    ∃ t2, t1.End sid c = some (some tid, t2) ∧
      t2.track_sets[sid]? =
        some ⟨key, nb, l.set j { id := tid, occupancy := .cookie c (v - 1) }⟩ ∧
      t2.violations = t1.violations ∧
      numTracks t2 sid = l.length := by
  have hsl : sid < t1.track_sets.length := (List.getElem?_eq_some.mp hs1).1
  refine ⟨_, End_on_tagged t1 sid c key nb l j tid v hl hj hs1, ?_, ?_, ?_⟩
  · exact withTracks_get _ _ _ _ _ _ hsl
  · simp [withTracks]
  · rw [numTracks_withTracks _ _ _ _ _ _ hsl]
    simp

theorem double_begin_chain (t : Tracker) (sid : Nat) (set : TrackSet) (c : Int)
    (hs : t.track_sets[sid]? = some set)
    (hfresh : ∀ x ∈ set.tracks, tagMatches c x = false) :
    ∃ tid t1 t2 t3 t4,
      t.Begin sid c = some (tid, t1) ∧
      t1.Begin sid c = some (tid, t2) ∧
      t2.violations = t1.violations
        + (if set.nesting_behaviour = .kUnnestable then 1 else 0) ∧
      numTracks t2 sid = numTracks t1 sid ∧
      cookieState t1 sid c = some (tid, 1) ∧
      cookieState t2 sid c = some (tid, 2) ∧
      t2.End sid c = some (some tid, t3) ∧
      cookieState t3 sid c = some (tid, 1) ∧
      t3.End sid c = some (some tid, t4) ∧
      cookieState t4 sid c = some (tid, 0) ∧
      numTracks t4 sid = numTracks t1 sid := by
  obtain ⟨l, j, tid, base, hl, hj, hbts, hbvio, e1⟩ :=
    Begin_fresh_cookie t sid c set hs hfresh
  have hsl : sid < t.track_sets.length := (List.getElem?_eq_some.mp hs).1
  have hslb : sid < base.track_sets.length := by rw [hbts]; exact hsl
  have hs1 := withTracks_get base sid set.key set.nesting_behaviour
    (l.set j { id := tid, occupancy := .cookie c 1 }) base.violations hslb
  have hnum1 : numTracks (withTracks base sid set.key set.nesting_behaviour
      (l.set j { id := tid, occupancy := .cookie c 1 }) base.violations) sid
      = l.length := by
    rw [numTracks_withTracks _ _ _ _ _ _ hslb]
    simp
  obtain ⟨t2, e2, hs2, hvio2, hnum2⟩ :=
    Begin_on_tagged_chain _ sid c _ _ l j tid 1 hl hj hs1
  obtain ⟨t3, e3, hs3, hvio3, hnum3⟩ :=
    End_on_tagged_chain t2 sid c _ _ l j tid 2 hl hj (by simpa using hs2)
  obtain ⟨t4, e4, hs4, hvio4, hnum4⟩ :=
    End_on_tagged_chain t3 sid c _ _ l j tid 1 hl hj (by simpa using hs3)
  have hc1 := cookieState_on_tagged _ sid c _ _ l j tid 1 hl hj hs1
  have hc2 := cookieState_on_tagged t2 sid c _ _ l j tid 2 hl hj
    (by simpa using hs2)
  have hc3 := cookieState_on_tagged t3 sid c _ _ l j tid 1 hl hj
    (by simpa using hs3)
  have hc4 := cookieState_on_tagged t4 sid c _ _ l j tid 0 hl hj
    (by simpa using hs4)
  refine ⟨tid, _, t2, t3, t4, e1, e2, ?_, ?_, hc1, hc2, e3, hc3, e4, hc4, ?_⟩
  · simpa using hvio2
  · rw [hnum2, hnum1]
  · rw [hnum4, hnum1]

/-- C6: For every set interned via `InternAndroidSet` (which fixes the
saturating-legacy policy) and every cookie `c` not currently tagged in the
set, the sequence `Begin c; Begin c; End c` leaves the track holding `c`
still occupied (open count 1 > 0), both Begins return the same single track
without creating a second one (and without a violation), and a second
`End c` is required to bring the open count to 0 and free the track. -/
theorem android_saturating_double_begin :
    (∀ (t : Tracker) (upid name : Nat), keyWF t = true →
      ∃ s,
        ((t.InternAndroidSet upid name).2).track_sets[(t.InternAndroidSet upid name).1]?
            = some s ∧
          s.nesting_behaviour = .kLegacySaturatingUnnestable) ∧
    (∀ (t : Tracker) (sid : Nat) (set : TrackSet) (c : Int),
      t.track_sets[sid]? = some set →
      set.nesting_behaviour = .kLegacySaturatingUnnestable →
      (∀ x ∈ set.tracks, tagMatches c x = false) →
      ∃ tid t1 t2 t3 t4,
        t.Begin sid c = some (tid, t1) ∧
        t1.Begin sid c = some (tid, t2) ∧
        t2.violations = t1.violations ∧
        numTracks t2 sid = numTracks t1 sid ∧
        cookieState t2 sid c = some (tid, 2) ∧
        t2.End sid c = some (some tid, t3) ∧
        cookieState t3 sid c = some (tid, 1) ∧
        t3.End sid c = some (some tid, t4) ∧
        cookieState t4 sid c = some (tid, 0)) := by
  constructor
  · intro t upid name hwf
    cases hA : lookupKey (upid, name) t.android_track_set_ids with
    | some sidA =>
      obtain ⟨sA, hsA, -, hnbA⟩ := keyWF_android hwf (lookupKey_mem hA)
      simp only [Tracker.InternAndroidSet, hA]
      exact ⟨sA, hsA, hnbA⟩
    | none =>
      simp only [Tracker.InternAndroidSet, hA]
      exact ⟨_, List.getElem?_concat_length .., rfl⟩
  · intro t sid set c hs hnb hfresh
    obtain ⟨tid, t1, t2, t3, t4, e1, e2, hvio, hnum, -, hc2, e3, hc3, e4, hc4, -⟩ :=
      double_begin_chain t sid set c hs hfresh
    rw [hnb] at hvio
    simp only [reduceCtorEq, if_false, Nat.add_zero] at hvio
    exact ⟨tid, t1, t2, t3, t4, e1, e2, hvio, hnum, hc2, e3, hc3, e4, hc4⟩

/-- Witness for C6: the full lifecycle on the android set of a fresh
tracker with cookie 7. -/
theorem android_saturating_double_begin_witness :
    ∃ tid t1 t2 t3 t4,
      tA.Begin 0 7 = some (tid, t1) ∧
      t1.Begin 0 7 = some (tid, t2) ∧
      t2.violations = t1.violations ∧
      numTracks t2 0 = numTracks t1 0 ∧
      cookieState t2 0 7 = some (tid, 2) ∧
      t2.End 0 7 = some (some tid, t3) ∧
      cookieState t3 0 7 = some (tid, 1) ∧
      t3.End 0 7 = some (some tid, t4) ∧
      cookieState t4 0 7 = some (tid, 0) :=
  android_saturating_double_begin.2 tA 0
    { key := .android 1 2, nesting_behaviour := .kLegacySaturatingUnnestable,
      tracks := [] }
    7 (by decide) (by decide) (by decide)

/-- C7 counterexample: on a strict-policy set, after
`Begin 5; Begin 5; End 5` the single subsequent `End` has NOT freed the
track: its open count is still 1 (so it is not free), and a following
`Begin` with the different cookie 6 allocates a second physical track
instead of reusing it — contradicting the claim that a single `End` after
the duplicate `Begin` frees the track for reuse by a different cookie. -/
theorem strict_single_end_does_not_free :
    Tracker.init.InternGlobalTrackSet 10 = (0, tG) ∧
    tG.Begin 0 5 = some (0, tB1) ∧
    tB1.Begin 0 5 = some (0, tB2) ∧
    tB2.End 0 5 = some (some 0, tE1) ∧
    cookieState tE1 0 5 = some (0, 1) ∧
    isFree { id := 0, occupancy := .cookie 5 1 } = false ∧
    tE1.Begin 0 6 = some (1, tF) ∧
    numTracks tE1 0 = 1 ∧
    numTracks tF 0 = 2 := by
  decide

/-- C7 (amended): Under a Strict-policy set, a duplicate `Begin` on a cookie
that is open exactly once registers a protocol-violation signal and returns
the already-assigned track without creating a new one; the duplicate `Begin`
adds to the open count, so two subsequent `End` calls (not one) are required
before the track's count returns to 0 and it becomes free for reuse by a
different cookie. -/
theorem strict_double_begin_violation_two_ends (t : Tracker) (sid : Nat)
    (set : TrackSet) (c : Int)
    (hs : t.track_sets[sid]? = some set)
    (hnb : set.nesting_behaviour = .kUnnestable)
    (hfresh : ∀ x ∈ set.tracks, tagMatches c x = false) :
    ∃ tid t1 t2 t3 t4,
      t.Begin sid c = some (tid, t1) ∧
      cookieState t1 sid c = some (tid, 1) ∧
      t1.Begin sid c = some (tid, t2) ∧
      t2.violations = t1.violations + 1 ∧
      numTracks t2 sid = numTracks t1 sid ∧
      cookieState t2 sid c = some (tid, 2) ∧
      t2.End sid c = some (some tid, t3) ∧
      cookieState t3 sid c = some (tid, 1) ∧
      t3.End sid c = some (some tid, t4) ∧
      cookieState t4 sid c = some (tid, 0) := by
  obtain ⟨tid, t1, t2, t3, t4, e1, e2, hvio, hnum, hc1, hc2, e3, hc3, e4, hc4, -⟩ :=
    double_begin_chain t sid set c hs hfresh
  rw [hnb] at hvio
  simp only [if_pos rfl] at hvio
  exact ⟨tid, t1, t2, t3, t4, e1, hc1, e2, hvio, hnum, hc2, e3, hc3, e4, hc4⟩

/-- Witness for C7's amended theorem: the lifecycle on a concrete strict
set with cookie 5. -/
theorem strict_double_begin_violation_two_ends_witness :
    ∃ tid t1 t2 t3 t4,
      tG.Begin 0 5 = some (tid, t1) ∧
      cookieState t1 0 5 = some (tid, 1) ∧
      t1.Begin 0 5 = some (tid, t2) ∧
      t2.violations = t1.violations + 1 ∧
      numTracks t2 0 = numTracks t1 0 ∧
      cookieState t2 0 5 = some (tid, 2) ∧
      t2.End 0 5 = some (some tid, t3) ∧
      cookieState t3 0 5 = some (tid, 1) ∧
      t3.End 0 5 = some (some tid, t4) ∧
      cookieState t4 0 5 = some (tid, 0) :=
  strict_double_begin_violation_two_ends tG 0
    { key := .global 10, nesting_behaviour := .kUnnestable, tracks := [] }
    5 (by decide) (by decide) (by decide)

theorem mem_of_getElem?_some {α : Type} {l : List α} {n : Nat} {a : α}
    (h : l[n]? = some a) : a ∈ l := by
  obtain ⟨hlt, rfl⟩ := List.getElem?_eq_some.mp h
  exact List.getElem_mem hlt

theorem idsWF_spec {t : Tracker} (h : idsWF t = true) {set : TrackSet}
    (hset : set ∈ t.track_sets) :
    (set.tracks.map TrackState.id).Nodup ∧
      ∀ tr ∈ set.tracks, tr.id < t.next_track_id := by
  rw [idsWF, List.all_eq_true] at h
  have hx := h set hset
  simp only [Bool.and_eq_true, decide_eq_true_eq, List.all_eq_true] at hx
  refine ⟨hx.1, fun tr htr => ?_⟩
  simpa using hx.2 tr htr

theorem nodup_map_id_ne {l : List TrackState}
    (hnd : (l.map TrackState.id).Nodup) {i j : Nat} {x y : TrackState}
    (hi : l[i]? = some x) (hj : l[j]? = some y) (hij : i ≠ j) :
    x.id ≠ y.id := by
  obtain ⟨hi', hix⟩ := List.getElem?_eq_some.mp hi
  obtain ⟨hj', hjy⟩ := List.getElem?_eq_some.mp hj
  intro hEq
  apply hij
  have hi'' : i < (l.map TrackState.id).length := by simpa using hi'
  have hj'' : j < (l.map TrackState.id).length := by simpa using hj'
  have hget : (l.map TrackState.id).get ⟨i, hi''⟩
      = (l.map TrackState.id).get ⟨j, hj''⟩ := by
    simp only [List.get_eq_getElem, List.getElem_map]
    rw [hix, hjy, hEq]
  have := (List.Nodup.get_inj_iff hnd).mp hget
  simpa using this

theorem runScoped_single_track (calls : List (Int × Int)) (t : Tracker)
    (sid : Nat) (key : SetKey) (nb : NestingBehaviour) (tid : Nat) (e : Int)
    (hsup : scopedSupported key = true)
    (hs : t.track_sets[sid]? =
      some ⟨key, nb, [{ id := tid, occupancy := .range e }]⟩)
    (hord : List.Chain' (fun a b => a.1 + a.2 ≤ b.1) calls)
    (hfirst : ∀ p ∈ calls.head?, e ≤ p.1) :
    numTracks (runScoped t sid calls) sid = 1 := by
  induction calls generalizing t tid e with
  | nil => simp [runScoped, numTracks, hs]
  | cons p rest ih =>
    obtain ⟨ts, dur⟩ := p
    have hsl : sid < t.track_sets.length := (List.getElem?_eq_some.mp hs).1
    have he : e ≤ ts := hfirst (ts, dur) (by simp)
    have hu : updateFirst (rangeFreeAt ts) (setRangeEnd (ts + dur))
        [{ id := tid, occupancy := .range e }]
        = some ({ id := tid, occupancy := .range e },
            [{ id := tid, occupancy := .range (ts + dur) }]) := by
      simp [updateFirst, rangeFreeAt, he, setRangeEnd]
    have e1 : t.Scoped sid ts dur = some (tid,
        { t with
          track_sets := t.track_sets.set sid
            { key := key, nesting_behaviour := nb,
              tracks := [{ id := tid, occupancy := .range (ts + dur) }] } }) := by
      simp only [Tracker.Scoped, hs, hsup, if_true, hu]
    obtain ⟨hR, hord'⟩ := List.chain'_cons'.mp hord
    simp only [runScoped, e1]
    exact ih _ tid (ts + dur) (List.getElem?_set_self hsl) hord'
      (fun q hq => hR q hq)

/-- C8: For every set supporting `Scoped`, `Scoped ts dur` returns the first
track in insertion order whose stored end timestamp is ≤ `ts`, updating that
track's end to `ts + dur`, and creates a new appended track exactly when no
such track exists; consequently, from an empty set, a non-empty sequence of
pairwise non-overlapping calls in non-decreasing start order (each interval
ending no later than the next begins) uses exactly one track, and two
successive calls whose intervals overlap always return two distinct tracks
(stated under the track-identity invariant `idsWF`). -/
theorem Scoped_first_fit_and_reuse :
    (∀ (t : Tracker) (sid : Nat) (ts dur : Int) (set : TrackSet),
      t.track_sets[sid]? = some set → scopedSupported set.key = true →
      (∀ j sel, set.tracks.findIdx? (rangeFreeAt ts) = some j →
        set.tracks[j]? = some sel →
        t.Scoped sid ts dur = some (sel.id,
          { t with
            track_sets := t.track_sets.set sid
              { set with
                tracks := set.tracks.set j (setRangeEnd (ts + dur) sel) } })) ∧
      (set.tracks.findIdx? (rangeFreeAt ts) = none →
        t.Scoped sid ts dur = some (t.next_track_id,
          { t with
            track_sets := t.track_sets.set sid
              { set with tracks := set.tracks
                  ++ [{ id := t.next_track_id, occupancy := .range (ts + dur) }] }
            next_track_id := t.next_track_id + 1 }))) ∧
    (∀ (t : Tracker) (sid : Nat) (key : SetKey) (nb : NestingBehaviour)
      (calls : List (Int × Int)),
      scopedSupported key = true →
      t.track_sets[sid]? = some ⟨key, nb, []⟩ →
      List.Chain' (fun a b => a.1 + a.2 ≤ b.1) calls →
      calls ≠ [] →
      numTracks (runScoped t sid calls) sid = 1) ∧
    (∀ (t : Tracker) (sid : Nat) (ts1 dur1 ts2 dur2 : Int) (tid1 tid2 : Nat)
      (t1 t2 : Tracker),
      idsWF t = true →
      t.Scoped sid ts1 dur1 = some (tid1, t1) →
      t1.Scoped sid ts2 dur2 = some (tid2, t2) →
      ts1 ≤ ts2 → ts2 < ts1 + dur1 → tid1 ≠ tid2) := by
  refine ⟨?_, ?_, ?_⟩
  · intro t sid ts dur set hs hsup
    constructor
    · intro j sel hj hsel
      obtain ⟨sel', h1, h2, h3⟩ :=
        findIdx?_some_updateFirst (rangeFreeAt ts) (setRangeEnd (ts + dur)) hj
      rw [hsel] at h1
      obtain rfl : sel = sel' := Option.some.inj h1
      simp only [Tracker.Scoped, hs, hsup, if_true, h3]
    · intro hnone
      have h0 : updateFirst (rangeFreeAt ts) (setRangeEnd (ts + dur)) set.tracks
          = none :=
        (updateFirst_eq_none_iff _ _ _).mpr (List.findIdx?_eq_none_iff.mp hnone)
      simp only [Tracker.Scoped, hs, hsup, if_true, h0]
  · intro t sid key nb calls hsup hs hord hne
    cases calls with
    | nil => exact absurd rfl hne
    | cons p rest =>
      obtain ⟨ts, dur⟩ := p
      have hsl : sid < t.track_sets.length := (List.getElem?_eq_some.mp hs).1
      have e1 : t.Scoped sid ts dur = some (t.next_track_id,
          { t with
            track_sets := t.track_sets.set sid
              { key := key, nesting_behaviour := nb,
                tracks := [{ id := t.next_track_id,
                             occupancy := .range (ts + dur) }] }
            next_track_id := t.next_track_id + 1 }) := by
        simp only [Tracker.Scoped, hs, hsup, if_true, updateFirst, List.nil_append]
      obtain ⟨hR, hord'⟩ := List.chain'_cons'.mp hord
      simp only [runScoped, e1]
      exact runScoped_single_track rest _ sid key nb _ (ts + dur) hsup
        (List.getElem?_set_self hsl) hord' (fun q hq => hR q hq)
  · intro t sid ts1 dur1 ts2 dur2 tid1 tid2 t1 t2 hwf h1 h2 hord hover
    cases hs : t.track_sets[sid]? with
    | none => simp only [Tracker.Scoped, hs] at h1; exact Option.noConfusion h1
    | some set =>
      simp only [Tracker.Scoped, hs] at h1
      by_cases hsup : scopedSupported set.key = true
      swap
      · rw [if_neg hsup] at h1
        exact Option.noConfusion h1
      rw [if_pos hsup] at h1
      have hsl : sid < t.track_sets.length := (List.getElem?_eq_some.mp hs).1
      obtain ⟨hnd, hbound⟩ := idsWF_spec hwf (mem_of_getElem?_some hs)
      cases hu1 : updateFirst (rangeFreeAt ts1) (setRangeEnd (ts1 + dur1))
          set.tracks with
      | some pr =>
        obtain ⟨sel, tracks'⟩ := pr
        simp only [hu1] at h1
        obtain ⟨rfl, rfl⟩ : sel.id = tid1 ∧ _ = t1 := Prod.mk.inj (Option.some.inj h1)
        obtain ⟨j, hjsel, hpsel, hshape, -⟩ := updateFirst_eq_some_shape _ _ hu1
        subst hshape
        have hjlt : j < set.tracks.length := (List.getElem?_eq_some.mp hjsel).1
        have hs1 : (t.track_sets.set sid
            { set with
              tracks := set.tracks.set j (setRangeEnd (ts1 + dur1) sel) })[sid]?
            = some { set with
                tracks := set.tracks.set j (setRangeEnd (ts1 + dur1) sel) } :=
          List.getElem?_set_self hsl
        simp only [Tracker.Scoped, hs1] at h2
        rw [if_pos hsup] at h2
        cases hu2 : updateFirst (rangeFreeAt ts2) (setRangeEnd (ts2 + dur2))
            (set.tracks.set j (setRangeEnd (ts1 + dur1) sel)) with
        | some pr2 =>
          obtain ⟨sel2, tracks''⟩ := pr2
          simp only [hu2] at h2
          obtain ⟨rfl, rfl⟩ : sel2.id = tid2 ∧ _ = t2 :=
            Prod.mk.inj (Option.some.inj h2)
          obtain ⟨j2, hj2sel, hp2, -, -⟩ := updateFirst_eq_some_shape _ _ hu2
          have hj2ne : j2 ≠ j := by
            intro hEq
            subst hEq
            rw [List.getElem?_set_self hjlt] at hj2sel
            obtain rfl : setRangeEnd (ts1 + dur1) sel = sel2 :=
              Option.some.inj hj2sel
            simp only [rangeFreeAt, setRangeEnd, decide_eq_true_eq] at hp2
            omega
          rw [List.getElem?_set_ne (Ne.symm hj2ne)] at hj2sel
          exact nodup_map_id_ne hnd hjsel hj2sel (fun h => hj2ne h.symm)
        | none =>
          simp only [hu2] at h2
          obtain ⟨rfl, rfl⟩ : t.next_track_id = tid2 ∧ _ = t2 :=
            Prod.mk.inj (Option.some.inj h2)
          exact Nat.ne_of_lt (hbound sel (mem_of_getElem?_some hjsel))
      | none =>
        simp only [hu1] at h1
        obtain ⟨rfl, rfl⟩ : t.next_track_id = tid1 ∧ _ = t1 :=
          Prod.mk.inj (Option.some.inj h1)
        have hs1 : (t.track_sets.set sid
            { set with tracks := set.tracks
                ++ [{ id := t.next_track_id, occupancy := .range (ts1 + dur1) }] })[sid]?
            = some { set with tracks := set.tracks
                ++ [{ id := t.next_track_id, occupancy := .range (ts1 + dur1) }] } :=
          List.getElem?_set_self hsl
        simp only [Tracker.Scoped, hs1] at h2
        rw [if_pos hsup] at h2
        cases hu2 : updateFirst (rangeFreeAt ts2) (setRangeEnd (ts2 + dur2))
            (set.tracks
              ++ [{ id := t.next_track_id, occupancy := .range (ts1 + dur1) }]) with
        | some pr2 =>
          obtain ⟨sel2, tracks''⟩ := pr2
          simp only [hu2] at h2
          obtain ⟨rfl, rfl⟩ : sel2.id = tid2 ∧ _ = t2 :=
            Prod.mk.inj (Option.some.inj h2)
          obtain ⟨j2, hj2sel, hp2, -, -⟩ := updateFirst_eq_some_shape _ _ hu2
          have hj2lt : j2 < set.tracks.length + 1 := by
            have := (List.getElem?_eq_some.mp hj2sel).1
            simpa using this
          have hj2ne : j2 ≠ set.tracks.length := by
            intro hEq
            subst hEq
            rw [List.getElem?_concat_length] at hj2sel
            obtain rfl :
                (⟨t.next_track_id, .range (ts1 + dur1)⟩ : TrackState) = sel2 :=
              Option.some.inj hj2sel
            simp only [rangeFreeAt, decide_eq_true_eq] at hp2
            omega
          rw [List.getElem?_append_left (by omega)] at hj2sel
          exact Nat.ne_of_gt (hbound sel2 (mem_of_getElem?_some hj2sel))
        | none =>
          simp only [hu2] at h2
          obtain ⟨rfl, rfl⟩ : t.next_track_id + 1 = tid2 ∧ _ = t2 :=
            Prod.mk.inj (Option.some.inj h2)
          omega

/-- Witness for C8: the single-track part on two chained non-overlapping
calls, and the overlap part on two overlapping calls, both against the
concrete global set of `tG`. -/
theorem Scoped_first_fit_and_reuse_witness :
    numTracks (runScoped tG 0 [(0, 5), (5, 5)]) 0 = 1 ∧ (0 : Nat) ≠ 1 :=
  ⟨Scoped_first_fit_and_reuse.2.1 tG 0 (.global 10) .kUnnestable
      [(0, 5), (5, 5)] (by decide) (by decide) (by simp [List.chain'_cons])
      (by decide),
   Scoped_first_fit_and_reuse.2.2 tG 0 0 10 5 10 0 1 tS1 tS2 (by decide)
      (by decide) (by decide) (by decide) (by decide)⟩

theorem tagOf_eq_some {tr : TrackState} {c : Int} :
    tagOf tr = some c ↔ ∃ n, tr.occupancy = .cookie c n := by
  cases hocc : tr.occupancy with
  | cookie c' n => simp [tagOf, hocc, eq_comm, And.comm]
  | range e => simp [tagOf, hocc]

theorem tagMatches_iff {tr : TrackState} {c : Int} :
    tagMatches c tr = true ↔ ∃ n, tr.occupancy = .cookie c n := by
  cases hocc : tr.occupancy with
  | cookie c' n => simp [tagMatches, hocc, eq_comm, And.comm]
  | range e => simp [tagMatches, hocc]

theorem nodup_map_eq_of_getElem? {α β : Type} {f : α → β} {l : List α}
    (hnd : (l.map f).Nodup) {i j : Nat} {x y : α}
    (hi : l[i]? = some x) (hj : l[j]? = some y) (hf : f x = f y) : i = j := by
  obtain ⟨hi', hix⟩ := List.getElem?_eq_some.mp hi
  obtain ⟨hj', hjy⟩ := List.getElem?_eq_some.mp hj
  have hi'' : i < (l.map f).length := by simpa using hi'
  have hj'' : j < (l.map f).length := by simpa using hj'
  have hget : (l.map f).get ⟨i, hi''⟩ = (l.map f).get ⟨j, hj''⟩ := by
    simp only [List.get_eq_getElem, List.getElem_map]
    rw [hix, hjy, hf]
  have := (List.Nodup.get_inj_iff hnd).mp hget
  simpa using this

theorem mem_set_self {α : Type} {l : List α} {j : Nat} (a : α)
    (hj : j < l.length) : a ∈ l.set j a :=
  mem_of_getElem?_some (List.getElem?_set_self hj)

theorem not_mem_set_of_tag_nodup {l : List TrackState} {j : Nat}
    {sel a : TrackState} (hnd : (l.map tagOf).Nodup) (hsel : l[j]? = some sel)
    (hne : a ≠ sel) : sel ∉ l.set j a := by
  intro hmem
  obtain ⟨i, hi, hEq⟩ := List.mem_iff_getElem.mp hmem
  by_cases hij : i = j
  · subst hij
    rw [List.getElem_set_self] at hEq
    exact hne hEq
  · have hi' : i < l.length := by simpa using hi
    rw [List.getElem_set_ne (fun h => hij h.symm)] at hEq
    have hiSel : l[i]? = some sel := by
      rw [List.getElem?_eq_getElem hi']
      exact congrArg some hEq
    exact hij (nodup_map_eq_of_getElem? hnd hiSel hsel rfl)

theorem le_maxOpen (k : Nat) (evs : List CookieEvent) : k ≤ maxOpen k evs := by
  cases evs with
  | nil => exact Nat.le_refl k
  | cons ev evs =>
    cases ev with
    | beginEv c => rw [maxOpen]; exact Nat.le_max_left ..
    | endEv c => rw [maxOpen]; exact Nat.le_max_left ..

theorem TracksInv_begin (t : Tracker) (sid : Nat) (c : Int) (set : TrackSet)
    (opened used : List Int)
    (hs : t.track_sets[sid]? = some set)
    (hinv : TracksInv set.tracks opened used)
    (hc : c ∉ used) :
    ∃ tid t', t.Begin sid c = some (tid, t') ∧
      ∃ set', t'.track_sets[sid]? = some set' ∧
        TracksInv set'.tracks (c :: opened) (c :: used) ∧
        (set'.tracks.length = set.tracks.length ∨
          (set'.tracks.length = set.tracks.length + 1 ∧
            set.tracks.length = opened.length)) := by
  obtain ⟨hall, hnodup, hiff, hcount, hond, hsub⟩ := hinv
  have hsl : sid < t.track_sets.length := (List.getElem?_eq_some.mp hs).1
  have hcnot : some c ∉ set.tracks.map tagOf := by
    intro hmem
    obtain ⟨tr, htr, htagEq⟩ := List.mem_map.mp hmem
    obtain ⟨n, hocc⟩ := tagOf_eq_some.mp htagEq
    obtain ⟨c', n', hocc', -, hc'⟩ := hall tr htr
    rw [hocc] at hocc'
    obtain ⟨rfl, -⟩ := Occupancy.cookie.inj hocc'
    exact hc hc'
  have h0 : updateFirst (tagMatches c) bumpCookie set.tracks = none := by
    apply (updateFirst_eq_none_iff _ _ _).mpr
    intro tr htr
    cases h : tagMatches c tr with
    | false => rfl
    | true =>
      obtain ⟨n, hocc⟩ := tagMatches_iff.mp h
      exact absurd (List.mem_map.mpr ⟨tr, htr, tagOf_eq_some.mpr ⟨n, hocc⟩⟩) hcnot
  cases hu : updateFirst isFree (retagCookie c) set.tracks with
  | some pr =>
    obtain ⟨sel, tracks₁⟩ := pr
    obtain ⟨j, hsel, hfree, hshape, -⟩ := updateFirst_eq_some_shape _ _ hu
    subst hshape
    have hjlt : j < set.tracks.length := (List.getElem?_eq_some.mp hsel).1
    obtain ⟨c₀, n₀, hocc₀, hn₀, hc₀⟩ := hall sel (mem_of_getElem?_some hsel)
    have hn₀0 : n₀ = 0 := by
      simp only [isFree, hocc₀, decide_eq_true_eq] at hfree
      exact hfree
    refine ⟨sel.id,
      { t with
        track_sets := t.track_sets.set sid
          { set with tracks := set.tracks.set j (retagCookie c sel) } },
      by simp only [Tracker.Begin, hs, h0, hu],
      { set with tracks := set.tracks.set j (retagCookie c sel) },
      List.getElem?_set_self hsl, ?_, Or.inl (by simp)⟩
    show TracksInv (set.tracks.set j (retagCookie c sel)) (c :: opened) (c :: used)
    refine ⟨?_, ?_, ?_, ?_, ?_, ?_⟩
    · intro tr htr
      rcases List.mem_or_eq_of_mem_set htr with htr' | rfl
      · obtain ⟨c', n', hocc', hn', hc'⟩ := hall tr htr'
        exact ⟨c', n', hocc', hn', List.mem_cons_of_mem _ hc'⟩
      · exact ⟨c, 1, rfl, Nat.le_refl 1, List.mem_cons_self ..⟩
    · rw [List.map_set]
      exact nodup_set_of_not_mem hnodup hcnot
    · intro c''
      constructor
      · intro hc''
        rcases List.mem_cons.mp hc'' with rfl | hc''op
        · exact ⟨retagCookie c'' sel, mem_set_self _ hjlt, rfl⟩
        · obtain ⟨x, hx, hxocc⟩ := (hiff c'').mp hc''op
          have hxne : x ≠ sel := by
            intro hEq
            rw [hEq, hocc₀] at hxocc
            obtain ⟨-, h10⟩ := Occupancy.cookie.inj hxocc
            omega
          exact ⟨x, mem_set_of_mem_of_ne hsel hx hxne, hxocc⟩
      · rintro ⟨tr, htr, hocc⟩
        rcases List.mem_or_eq_of_mem_set htr with htr' | rfl
        · exact List.mem_cons_of_mem _ ((hiff c'').mpr ⟨tr, htr', hocc⟩)
        · have hocc' : Occupancy.cookie c 1 = .cookie c'' 1 := hocc
          obtain ⟨rfl, -⟩ := Occupancy.cookie.inj hocc'
          exact List.mem_cons_self ..
    · have hbal := countP_set_balance isOpenTrack (retagCookie c sel) hsel
      have h1 : isOpenTrack sel = false := by
        simp [isOpenTrack, hocc₀, hn₀0]
      have h2 : isOpenTrack (retagCookie c sel) = true := by
        simp [isOpenTrack, retagCookie]
      rw [h1, h2] at hbal
      simp only [if_false, if_true, Nat.add_zero, Bool.false_eq_true] at hbal
      rw [List.length_cons, ← hcount]
      omega
    · exact List.nodup_cons.mpr ⟨fun hcm => hc (hsub c hcm), hond⟩
    · intro c'' hc''
      rcases List.mem_cons.mp hc'' with rfl | h
      · exact List.mem_cons_self ..
      · exact List.mem_cons_of_mem _ (hsub c'' h)
  | none =>
    have hopenall : ∀ tr ∈ set.tracks, isOpenTrack tr = true := by
      intro tr htr
      have hfree : isFree tr = false := (updateFirst_eq_none_iff _ _ _).mp hu tr htr
      obtain ⟨c', n', hocc', -, -⟩ := hall tr htr
      simp only [isFree, hocc', decide_eq_false_iff_not] at hfree
      simp only [isOpenTrack, hocc', decide_eq_true_eq]
      omega
    have hlen : set.tracks.length = opened.length := by
      rw [← hcount]
      exact (List.countP_eq_length.mpr hopenall).symm
    refine ⟨t.next_track_id,
      { t with
        track_sets := t.track_sets.set sid
          { set with tracks := set.tracks
              ++ [{ id := t.next_track_id, occupancy := .cookie c 1 }] }
        next_track_id := t.next_track_id + 1 },
      by simp only [Tracker.Begin, hs, h0, hu],
      { set with tracks := set.tracks
          ++ [{ id := t.next_track_id, occupancy := .cookie c 1 }] },
      List.getElem?_set_self hsl, ?_, Or.inr ⟨by simp, hlen⟩⟩
    show TracksInv
      (set.tracks ++ [{ id := t.next_track_id, occupancy := .cookie c 1 }])
      (c :: opened) (c :: used)
    refine ⟨?_, ?_, ?_, ?_, ?_, ?_⟩
    · intro tr htr
      rcases List.mem_append.mp htr with htr' | htr'
      · obtain ⟨c', n', hocc', hn', hc'⟩ := hall tr htr'
        exact ⟨c', n', hocc', hn', List.mem_cons_of_mem _ hc'⟩
      · obtain rfl := List.mem_singleton.mp htr'
        exact ⟨c, 1, rfl, Nat.le_refl 1, List.mem_cons_self ..⟩
    · rw [List.map_append]
      refine List.nodup_append.mpr ⟨hnodup, by simp, ?_⟩
      intro a ha ha'
      obtain rfl : a = some c := by simpa using ha'
      exact hcnot ha
    · intro c''
      constructor
      · intro hc''
        rcases List.mem_cons.mp hc'' with rfl | hc''op
        · exact ⟨{ id := t.next_track_id, occupancy := .cookie c'' 1 },
            List.mem_append_right _ (List.mem_singleton.mpr rfl), rfl⟩
        · obtain ⟨x, hx, hxocc⟩ := (hiff c'').mp hc''op
          exact ⟨x, List.mem_append_left _ hx, hxocc⟩
      · rintro ⟨tr, htr, hocc⟩
        rcases List.mem_append.mp htr with htr' | htr'
        · exact List.mem_cons_of_mem _ ((hiff c'').mpr ⟨tr, htr', hocc⟩)
        · obtain rfl := List.mem_singleton.mp htr'
          have hocc' : Occupancy.cookie c 1 = .cookie c'' 1 := hocc
          obtain ⟨rfl, -⟩ := Occupancy.cookie.inj hocc'
          exact List.mem_cons_self ..
    · rw [List.countP_append, hcount]
      simp [isOpenTrack]
    · exact List.nodup_cons.mpr ⟨fun hcm => hc (hsub c hcm), hond⟩
    · intro c'' hc''
      rcases List.mem_cons.mp hc'' with rfl | h
      · exact List.mem_cons_self ..
      · exact List.mem_cons_of_mem _ (hsub c'' h)

theorem TracksInv_end (t : Tracker) (sid : Nat) (c : Int) (set : TrackSet)
    (opened used : List Int)
    (hs : t.track_sets[sid]? = some set)
    (hinv : TracksInv set.tracks opened used)
    (hc : c ∈ opened) :
    ∃ r t', t.End sid c = some (r, t') ∧
      ∃ set', t'.track_sets[sid]? = some set' ∧
        TracksInv set'.tracks (opened.erase c) used ∧
        set'.tracks.length = set.tracks.length := by
  obtain ⟨hall, hnodup, hiff, hcount, hond, hsub⟩ := hinv
  have hsl : sid < t.track_sets.length := (List.getElem?_eq_some.mp hs).1
  obtain ⟨x, hx, hxocc⟩ := (hiff c).mp hc
  cases hu : updateFirst (tagMatches c) decCookie set.tracks with
  | none =>
    exfalso
    have hxf := (updateFirst_eq_none_iff _ _ _).mp hu x hx
    simp [tagMatches, hxocc] at hxf
  | some pr =>
    obtain ⟨sel, tracks₁⟩ := pr
    obtain ⟨j, hsel, htag, hshape, -⟩ := updateFirst_eq_some_shape _ _ hu
    subst hshape
    have hjlt : j < set.tracks.length := (List.getElem?_eq_some.mp hsel).1
    obtain ⟨n₀, hocc₀⟩ := tagMatches_iff.mp htag
    have h1 : tagOf sel = some c := by simp [tagOf, hocc₀]
    have h2 : tagOf x = some c := by simp [tagOf, hxocc]
    obtain rfl : sel = x :=
      eq_of_tagOf_eq hnodup (mem_of_getElem?_some hsel) hx (h1.trans h2.symm)
    have hn₀ : n₀ = 1 := by
      rw [hocc₀] at hxocc
      exact (Occupancy.cookie.inj hxocc).2
    subst hn₀
    have haocc : (decCookie sel).occupancy = .cookie c 0 := by
      simp [decCookie, hocc₀]
    have hdne : decCookie sel ≠ sel := by
      intro hEq
      have := congrArg TrackState.occupancy hEq
      rw [haocc, hocc₀] at this
      obtain ⟨-, h01⟩ := Occupancy.cookie.inj this
      omega
    have hselnot : sel ∉ set.tracks.set j (decCookie sel) :=
      not_mem_set_of_tag_nodup hnodup hsel hdne
    obtain ⟨c₁, n₁, hocc₁, -, hc₁⟩ := hall sel (mem_of_getElem?_some hsel)
    have hc₁' : c ∈ used := by
      rw [hocc₀] at hocc₁
      obtain ⟨rfl, -⟩ := Occupancy.cookie.inj hocc₁
      exact hc₁
    refine ⟨some sel.id,
      { t with
        track_sets := t.track_sets.set sid
          { set with tracks := set.tracks.set j (decCookie sel) } },
      by simp only [Tracker.End, hs, hu],
      { set with tracks := set.tracks.set j (decCookie sel) },
      List.getElem?_set_self hsl, ?_, by simp⟩
    show TracksInv (set.tracks.set j (decCookie sel)) (opened.erase c) used
    refine ⟨?_, ?_, ?_, ?_, ?_, ?_⟩
    · intro tr htr
      rcases List.mem_or_eq_of_mem_set htr with htr' | rfl
      · exact hall tr htr'
      · exact ⟨c, 0, haocc, Nat.zero_le 1, hc₁'⟩
    · rw [List.map_set]
      have hmapj : (set.tracks.map tagOf)[j]? = some (some c) := by
        rw [List.getElem?_map, hsel]
        simp [h1]
      rw [show tagOf (decCookie sel) = some c by simp [tagOf, haocc]]
      rw [set_of_getElem?_eq hmapj]
      exact hnodup
    · intro c''
      constructor
      · intro hc''
        obtain ⟨hne, hc''op⟩ := (List.Nodup.mem_erase_iff hond).mp hc''
        obtain ⟨y, hy, hyocc⟩ := (hiff c'').mp hc''op
        have hyne : y ≠ sel := by
          intro hEq
          rw [hEq, hocc₀] at hyocc
          obtain ⟨h', -⟩ := Occupancy.cookie.inj hyocc
          exact hne h'.symm
        exact ⟨y, mem_set_of_mem_of_ne hsel hy hyne, hyocc⟩
      · rintro ⟨tr, htr, hocc⟩
        rcases List.mem_or_eq_of_mem_set htr with htr' | rfl
        · have hc''op : c'' ∈ opened := (hiff c'').mpr ⟨tr, htr', hocc⟩
          refine (List.Nodup.mem_erase_iff hond).mpr ⟨?_, hc''op⟩
          intro hEq
          subst hEq
          have htrsel : tr = sel := by
            apply eq_of_tagOf_eq hnodup htr' (mem_of_getElem?_some hsel)
            rw [h1]
            simp [tagOf, hocc]
          subst htrsel
          exact hselnot htr
        · have hocc' : Occupancy.cookie c 0 = .cookie c'' 1 := haocc ▸ hocc
          obtain ⟨-, h01⟩ := Occupancy.cookie.inj hocc'
          omega
    · have hbal := countP_set_balance isOpenTrack (decCookie sel) hsel
      have hop1 : isOpenTrack sel = true := by
        simp [isOpenTrack, hocc₀]
      have hop2 : isOpenTrack (decCookie sel) = false := by
        simp [isOpenTrack, haocc]
      rw [hop1, hop2] at hbal
      simp only [if_true, if_false, Nat.add_zero, Bool.false_eq_true] at hbal
      rw [List.length_erase_of_mem hc, ← hcount]
      omega
    · exact List.Nodup.erase c hond
    · intro c'' hc''
      exact hsub c'' (List.mem_of_mem_erase hc'')

theorem runEvents_bound (evs : List CookieEvent) (t : Tracker) (sid : Nat)
    (set : TrackSet) (opened used : List Int)
    (hs : t.track_sets[sid]? = some set)
    (hinv : TracksInv set.tracks opened used)
    (hwf : wfEvents opened used evs) :
    numTracks (runEvents t sid evs) sid
      ≤ max set.tracks.length (maxOpen opened.length evs) := by
  induction evs generalizing t set opened used with
  | nil =>
    rw [runEvents, maxOpen, numTracks, hs]
    exact Nat.le_max_left ..
  | cons ev evs ih =>
    cases ev with
    | beginEv c =>
      obtain ⟨hcnot, hwf'⟩ := hwf
      obtain ⟨tid, t', e1, set', hs', hinv', hlen⟩ :=
        TracksInv_begin t sid c set opened used hs hinv hcnot
      have happ : applyEvent t sid (.beginEv c) = t' := by
        simp only [applyEvent, e1]
      rw [runEvents, happ, maxOpen]
      have hrec := ih t' set' (c :: opened) (c :: used) hs' hinv' hwf'
      rw [List.length_cons] at hrec
      have hle := le_maxOpen (opened.length + 1) evs
      rcases hlen with h | ⟨h1, h2⟩
      · refine le_trans hrec (max_le ?_ ?_)
        · rw [h]
          exact Nat.le_max_left ..
        · exact le_trans (Nat.le_max_right opened.length _) (Nat.le_max_right ..)
      · refine le_trans hrec (max_le ?_ ?_)
        · rw [h1, h2]
          exact le_trans hle
            (le_trans (Nat.le_max_right opened.length _) (Nat.le_max_right ..))
        · exact le_trans (Nat.le_max_right opened.length _) (Nat.le_max_right ..)
    | endEv c =>
      obtain ⟨hcin, hwf'⟩ := hwf
      obtain ⟨r, t', e1, set', hs', hinv', hlen⟩ :=
        TracksInv_end t sid c set opened used hs hinv hcin
      have happ : applyEvent t sid (.endEv c) = t' := by
        simp only [applyEvent, e1]
      rw [runEvents, happ, maxOpen]
      have hrec := ih t' set' (opened.erase c) used hs' hinv' hwf'
      rw [List.length_erase_of_mem hcin] at hrec
      refine le_trans hrec (max_le ?_ ?_)
      · rw [hlen]
        exact Nat.le_max_left ..
      · exact le_trans (Nat.le_max_right opened.length _) (Nat.le_max_right ..)

/-- C3: Track reuse is maximal: for every sequence of Begin/End calls on one
set (starting empty) using distinct cookies with properly paired Begin/End
(no duplicate Begin on an open cookie, no unmatched End — `wfEvents`), the
total number of tracks ever created in that set never exceeds the maximum
number of cookies simultaneously open at any instant during the sequence
(`maxOpen`); tracks are never destroyed, so the tracks present at the end are
exactly the tracks ever created. -/
theorem track_reuse_maximal (t : Tracker) (sid : Nat) (set : TrackSet)
    (evs : List CookieEvent)
    (hs : t.track_sets[sid]? = some set) (hempty : set.tracks = [])
    (hwf : wfEvents [] [] evs) :
    numTracks (runEvents t sid evs) sid ≤ maxOpen 0 evs := by
  have hinv : TracksInv set.tracks [] [] := by
    rw [hempty]
    exact ⟨by simp, by simp, by simp, by simp, by simp, by simp⟩
  have hb := runEvents_bound evs t sid set [] [] hs hinv hwf
  rw [hempty] at hb
  simpa using hb

/-- Witness for C3: four events with at most two simultaneously open
cookies on the concrete empty global set of `tG`. -/
theorem track_reuse_maximal_witness :
    numTracks (runEvents tG 0
        [.beginEv 1, .beginEv 2, .endEv 1, .beginEv 3]) 0
      ≤ maxOpen 0 [.beginEv 1, .beginEv 2, .endEv 1, .beginEv 3] :=
  track_reuse_maximal tG 0
    { key := .global 10, nesting_behaviour := .kUnnestable, tracks := [] }
    [.beginEv 1, .beginEv 2, .endEv 1, .beginEv 3]
    (by decide) (by decide) (by simp [wfEvents])

end AsyncTrackSetTracker
